import Mathlib

/-!
Verification development for the chat tool-orchestration service.

The definitions below are a shallow embedding of `src/app/api/chat/route.ts`
(main version) and `src/app/api/chat/history/route.ts`.  Strings are modelled
as `List Char`; each JavaScript regular-expression replacement is embedded as
an explicit left-to-right scanner with the same match semantics (greediness,
backtracking and case behaviour are reproduced where the pattern allows them).
`\s` and the trim functions are modelled on the ASCII whitespace characters.
-/

set_option maxRecDepth 8000

namespace Chat

/-- Whitespace as used by `trim`, `trimRight`/`trimEnd` and `\s` (ASCII part). -/
def jsWs (c : Char) : Bool :=
  c = ' ' || c = '\t' || c = '\n' || c = '\r' || c = '\x0b' || c = '\x0c'

/-- JavaScript `trimEnd` / `trimRight`: drop trailing whitespace. -/
def trimEndL (s : List Char) : List Char :=
  (s.reverse.dropWhile jsWs).reverse

/-- Drop leading whitespace. -/
def trimStartL (s : List Char) : List Char := s.dropWhile jsWs

/-- JavaScript `trim`: drop whitespace at both ends. -/
def jsTrimL (s : List Char) : List Char := trimEndL (trimStartL s)

/-- `input.replace(/\r\n/g, '\n')`. -/
def replaceCRLF : List Char → List Char
  | [] => []
  | '\r' :: '\n' :: rest => '\n' :: replaceCRLF rest
  | c :: rest => c :: replaceCRLF rest

/-- `text.split(/\n/)` (keeps empty segments, as in JavaScript). -/
def splitNl : List Char → List (List Char)
  | [] => [[]]
  | '\n' :: rest => [] :: splitNl rest
  | c :: rest =>
    match splitNl rest with
    | l :: ls => (c :: l) :: ls
    | [] => [[c]]

/-- `.replace(/&/g, '&amp;')`. -/
def escAmp : List Char → List Char
  | [] => []
  | '&' :: r => '&' :: 'a' :: 'm' :: 'p' :: ';' :: escAmp r
  | c :: r => c :: escAmp r

/-- `.replace(/</g, '&lt;')`. -/
def escLt : List Char → List Char
  | [] => []
  | '<' :: r => '&' :: 'l' :: 't' :: ';' :: escLt r
  | c :: r => c :: escLt r

/-- `.replace(/>/g, '&gt;')`. -/
def escGt : List Char → List Char
  | [] => []
  | '>' :: r => '&' :: 'g' :: 't' :: ';' :: escGt r
  | c :: r => c :: escGt r

/-- The `esc` helper of `toRichHtml`: escape `&`, then `<`, then `>`. -/
def escHtml (s : List Char) : List Char := escGt (escLt (escAmp s))

/-- Generic global regex-replace scanner.  `m` tries to match at the current
position and returns the replacement together with the remainder after the
match; on failure the scanner advances one character, exactly like a global
JavaScript `String.replace`.  The fuel is the input length; every matcher used
below consumes at least one character, so the fuel never runs out. -/
def runRep (m : List Char → Option (List Char × List Char)) : Nat → List Char → List Char
  | 0, s => s
  | _ + 1, [] => []
  | fuel + 1, c :: r =>
    match m (c :: r) with
    | some (rep, rem) => rep ++ runRep m fuel rem
    | none => c :: runRep m fuel r

/-- Run a global replacement over the whole string. -/
def applyRep (m : List Char → Option (List Char × List Char)) (s : List Char) : List Char :=
  runRep m s.length s

/-- Matcher for `/\*\*([^*]+)\*\*/g` with replacement `<strong>$1</strong>`. -/
def mBold : List Char → Option (List Char × List Char)
  | '*' :: '*' :: r =>
    let cap := r.takeWhile (fun c => c ≠ '*')
    match r.drop cap.length with
    | '*' :: '*' :: rest =>
      if cap = [] then none
      else some ("<strong>".data ++ cap ++ "</strong>".data, rest)
    | _ => none
  | _ => none

/-- Matcher for `/\*([^*]+)\*/g` with replacement `<em>$1</em>`. -/
def mEm : List Char → Option (List Char × List Char)
  | '*' :: r =>
    let cap := r.takeWhile (fun c => c ≠ '*')
    match r.drop cap.length with
    | '*' :: rest =>
      if cap = [] then none
      else some ("<em>".data ++ cap ++ "</em>".data, rest)
    | _ => none
  | _ => none

/-- Does `[^<]*>` match at the start of the string (used for the negative
lookahead `(?![^<]*>)` of the link pattern)? -/
def gtBeforeLt : List Char → Bool
  | [] => false
  | '>' :: _ => true
  | '<' :: _ => false
  | _ :: r => gtBeforeLt r

/-- Characters allowed in the URL body `[^\s)]`. -/
def urlChar (c : Char) : Bool := !(jsWs c) && c ≠ ')'

/-- Replacement text `<a href="$1" target="_blank" rel="noopener noreferrer">$1</a>`. -/
def linkWrap (url : List Char) : List Char :=
  "<a href=\"".data ++ url ++ "\" target=\"_blank\" rel=\"noopener noreferrer\">".data
    ++ url ++ "</a>".data

/-- Backtracking loop of the URL matcher: the greedy `[^\s)]+` gives back one
character at a time while the negative lookahead `(?![^<]*>)` fails. -/
def linkTryLen (pre body after : List Char) : Nat → Option (List Char × List Char)
  | 0 => none
  | k + 1 =>
    let rem := body.drop (k + 1) ++ after
    if gtBeforeLt rem then linkTryLen pre body after k
    else some (linkWrap (pre ++ body.take (k + 1)), rem)

/-- Matcher for `/(https?:\/\/[^\s)]+)(?![^<]*>)/g`. -/
def mLink : List Char → Option (List Char × List Char)
  | 'h' :: 't' :: 't' :: 'p' :: rest =>
    match rest with
    | 's' :: ':' :: '/' :: '/' :: r =>
      let body := r.takeWhile urlChar
      linkTryLen "https://".data body (r.drop body.length) body.length
    | ':' :: '/' :: '/' :: r =>
      let body := r.takeWhile urlChar
      linkTryLen "http://".data body (r.drop body.length) body.length
    | _ => none
  | _ => none

/-- The `fmtInline` helper: bold, then italics, then links. -/
def fmtInline (s : List Char) : List Char :=
  applyRep mLink (applyRep mEm (applyRep mBold s))

/-- Match `\s+(.+)` against `rest` and return the capture, reproducing the
greedy/backtracking behaviour of the JavaScript pattern. -/
def wsRunCapture (rest : List Char) : Option (List Char) :=
  let k := (rest.takeWhile jsWs).length
  if k = 0 then none
  else if k < rest.length then some (rest.drop k)
  else if 2 ≤ k then some (rest.drop (k - 1))
  else none

/-- Match `^PFX\s+(.+)` (the heading patterns) and return the capture. -/
def headCapture (pfx line : List Char) : Option (List Char) :=
  if pfx.isPrefixOf line then wsRunCapture (line.drop pfx.length) else none

/-- Match `^[-*]\s+(.+)` (the list-item pattern) and return the capture. -/
def liCapture : List Char → Option (List Char)
  | '-' :: r => wsRunCapture r
  | '*' :: r => wsRunCapture r
  | _ => none

/-- The `flushList` helper of `toRichHtml`. -/
def flushList (buf : List (List Char)) : List (List Char) :=
  if buf = [] then []
  else ["<ul>".data] ++ buf.map (fun li => "<li>".data ++ li ++ "</li>".data) ++ ["</ul>".data]

/-- The line-processing loop of `toRichHtml`: builds the `htmlParts` list while
carrying the pending `listBuffer`. -/
def richParts : List (List Char) → List (List Char) → List (List Char)
  | [], buf => flushList buf
  | raw :: rest, buf =>
    let line := trimEndL raw
    if jsTrimL line = [] then flushList buf ++ richParts rest []
    else
      match headCapture "###".data line with
      | some cap =>
        flushList buf ++ ["<h3>".data ++ fmtInline (escHtml cap) ++ "</h3>".data]
          ++ richParts rest []
      | none =>
      match headCapture "##".data line with
      | some cap =>
        flushList buf ++ ["<h2>".data ++ fmtInline (escHtml cap) ++ "</h2>".data]
          ++ richParts rest []
      | none =>
      match headCapture "#".data line with
      | some cap =>
        flushList buf ++ ["<h1>".data ++ fmtInline (escHtml cap) ++ "</h1>".data]
          ++ richParts rest []
      | none =>
      match liCapture line with
      | some cap => richParts rest (buf ++ [fmtInline (escHtml cap)])
      | none =>
        flushList buf ++ ["<p>".data ++ fmtInline (escHtml line) ++ "</p>".data]
          ++ richParts rest []

/-- `toRichHtml` on character lists. -/
def toRichHtmlL (input : List Char) : List Char :=
  List.intercalate "\n".data (richParts (splitNl (replaceCRLF input)) [])

/-- `toRichHtml(text)`: minimal Markdown to HTML conversion. -/
def toRichHtml (input : String) : String := ⟨toRichHtmlL input.data⟩

/-- Matcher for `/<\s*br\s*\/?\s*>/gi`. -/
def mBr : List Char → Option (List Char × List Char)
  | '<' :: r =>
    match r.dropWhile jsWs with
    | b :: r2 =>
      if b.toLower = 'b' then
        match r2 with
        | rc :: r3 =>
          if rc.toLower = 'r' then
            let r4 := r3.dropWhile jsWs
            let r5 := match r4 with
              | '/' :: t => t.dropWhile jsWs
              | _ => r4
            match r5 with
            | '>' :: t => some ("\n".data, t)
            | _ => none
          else none
        | [] => none
      else none
    | [] => none
  | _ => none

/-- The block-level tag names of the two tag patterns, in alternation order
(`p|div|h[1-6]|li|ul|ol|blockquote|section|article`). -/
def tagNames : List (List Char) :=
  ["p".data, "div".data, "h1".data, "h2".data, "h3".data, "h4".data, "h5".data, "h6".data,
   "li".data, "ul".data, "ol".data, "blockquote".data, "section".data, "article".data]

/-- Case-insensitively strip a (lowercase) pattern from the front of the input. -/
def dropPrefCI : List Char → List Char → Option (List Char)
  | [], s => some s
  | p :: ps, c :: cs => if c.toLower = p then dropPrefCI ps cs else none
  | _ :: _, [] => none

/-- After a closing tag name: `\s*>`. -/
def closeTagTail (s : List Char) : Option (List Char) :=
  match s.dropWhile jsWs with
  | '>' :: t => some t
  | _ => none

/-- Try the alternation of closing-tag names at the current position. -/
def tryCloseNames : List (List Char) → List Char → Option (List Char)
  | [], _ => none
  | n :: ns, s =>
    match dropPrefCI n s with
    | some r =>
      match closeTagTail r with
      | some t => some t
      | none => tryCloseNames ns s
    | none => tryCloseNames ns s

/-- Matcher for `/<\s*\/\s*(p|div|h[1-6]|li|ul|ol|blockquote|section|article)\s*>/gi`. -/
def mCloseTag : List Char → Option (List Char × List Char)
  | '<' :: r =>
    match r.dropWhile jsWs with
    | '/' :: r2 =>
      match tryCloseNames tagNames (r2.dropWhile jsWs) with
      | some t => some ("\n".data, t)
      | none => none
    | _ => none
  | _ => none

/-- After an opening tag name: `[^>]*>`. -/
def openTagTail (r : List Char) : Option (List Char) :=
  match r.dropWhile (fun c => c ≠ '>') with
  | '>' :: t => some t
  | _ => none

/-- Try the alternation of opening-tag names at the current position. -/
def tryOpenNames : List (List Char) → List Char → Option (List Char)
  | [], _ => none
  | n :: ns, s =>
    match dropPrefCI n s with
    | some r =>
      match openTagTail r with
      | some t => some t
      | none => tryOpenNames ns s
    | none => tryOpenNames ns s

/-- Matcher for `/<\s*(p|div|h[1-6]|li|ul|ol|blockquote|section|article)[^>]*>/gi`. -/
def mOpenTag : List Char → Option (List Char × List Char)
  | '<' :: r =>
    match tryOpenNames tagNames (r.dropWhile jsWs) with
    | some t => some ("\n".data, t)
    | none => none
  | _ => none

/-- Matcher for `/<[^>]+>/g` (strip remaining tags). -/
def mStrip : List Char → Option (List Char × List Char)
  | '<' :: r =>
    let mid := r.takeWhile (fun c => c ≠ '>')
    match r.drop mid.length with
    | '>' :: t => if mid = [] then none else some ([], t)
    | _ => none
  | _ => none

/-- Matcher for a literal global replacement such as `/&nbsp;/g`. -/
def mLit (pat rep : List Char) (s : List Char) : Option (List Char × List Char) :=
  if pat.isPrefixOf s ∧ pat ≠ [] then some (rep, s.drop pat.length) else none

/-- Matcher for `/\n{3,}/g` with replacement `'\n\n'` (the run is consumed
greedily). -/
def mCollapse : List Char → Option (List Char × List Char)
  | '\n' :: '\n' :: '\n' :: r =>
    some ("\n\n".data, r.dropWhile (fun c => c = '\n'))
  | _ => none

/-- `text.split('\n').map(line => line.trimEnd()).join('\n')`. -/
def lineTrimEnds (s : List Char) : List Char :=
  List.intercalate "\n".data ((splitNl s).map trimEndL)

/-- `htmlToPlainText` on character lists. -/
def htmlToPlainTextL (html : List Char) : List Char :=
  if html = [] then []
  else
    let t1 := applyRep mBr html
    let t2 := applyRep mCloseTag t1
    let t3 := applyRep mOpenTag t2
    let t4 := applyRep mStrip t3
    let t5 := applyRep (mLit "&nbsp;".data " ".data) t4
    let t6 := applyRep (mLit "&amp;".data "&".data) t5
    let t7 := applyRep (mLit "&lt;".data "<".data) t6
    let t8 := applyRep (mLit "&gt;".data ">".data) t7
    let t9 := applyRep (mLit "&quot;".data "\"".data) t8
    let t10 := applyRep (mLit "&#39;".data [Char.ofNat 39]) t9
    let t11 := lineTrimEnds t10
    let t12 := applyRep mCollapse t11
    jsTrimL t12

/-- `htmlToPlainText(html)`: invert block tags to newlines, strip tags,
unescape entities, collapse newline runs, trim. -/
def htmlToPlainText (html : String) : String := ⟨htmlToPlainTextL html.data⟩

/-- The whitespace-separated words of a string (used to state the round-trip
property "preserves all non-markup words and their order"). -/
def wordsOf : List Char → List (List Char)
  | [] => []
  | c :: r =>
    if jsWs c then wordsOf r
    else
      match r with
      | [] => [[c]]
      | d :: _ =>
        if jsWs d then [c] :: wordsOf r
        else
          match wordsOf r with
          | w :: ws => (c :: w) :: ws
          | [] => [[c]]

/-- Is one of the auto-link trigger substrings present? -/
def hasSchemeAt (s : List Char) : Bool :=
  "http://".data.isPrefixOf s || "https://".data.isPrefixOf s

/-- Scan for an auto-link trigger anywhere in the string. -/
def hasScheme : List Char → Bool
  | [] => false
  | s@(_ :: r) => hasSchemeAt s || hasScheme r

/-- Characters with markup meaning for `toRichHtml` (heading, list, bold or
italics markers, the HTML-escaped characters) together with the carriage
return that the formatter normalizes. -/
def markupChar (c : Char) : Bool :=
  c = '#' || c = '*' || c = '-' || c = '&' || c = '<' || c = '>' || c = '\r'

/-- A plain-text input with no markup characters: no markup character and no
auto-link trigger substring occurs in it. -/
def markupFree (s : List Char) : Bool :=
  s.all (fun c => !(markupChar c)) && !(hasScheme s)

/-! ### Data model of the orchestration route -/

/-- Association-list lookup (first match wins), modelling `Map.get`. -/
def alookup {α β : Type} [DecidableEq α] : α → List (α × β) → Option β
  | _, [] => none
  | k, (k2, v) :: rest => if k = k2 then some v else alookup k rest

/-- The `changes` object of `edit_content` arguments. -/
structure ChangesArgs where
  title : Option String := none
  description : Option String := none
deriving DecidableEq, Repr

/-- A parsed tool-call argument object (the result of `JSON.parse` on the
argument payload), with one optional field per property the three tools
inspect.  `JSON.stringify` of such an object is injective, so the object
itself stands for the canonicalized argument string. -/
structure ParsedArgs where
  query : Option String := none
  type_ : Option String := none
  title : Option String := none
  description : Option String := none
  content_type : Option String := none
  parent_id : Option String := none
  confirm : Option Bool := none
  content_id : Option String := none
  changes : Option ChangesArgs := none
deriving DecidableEq, Repr

/-- The raw `function.arguments` text of a tool call: either it fails
`JSON.parse` or it parses to an argument object. -/
inductive RawArgs
  | malformed (raw : String)
  | parsed (a : ParsedArgs)
deriving DecidableEq, Repr

/-- One entry of an assistant message's `tool_calls` array
(`{id, function: {name, arguments}}`, flattened). -/
structure ToolCallRec where
  id : String
  name : String
  arguments : RawArgs
deriving DecidableEq, Repr

/-- Type guard `isFindContentArgs` (`'query' in args`). -/
def isFindContentArgs (a : ParsedArgs) : Bool := a.query.isSome

/-- Type guard `isCreateContentArgs`. -/
def isCreateContentArgs (a : ParsedArgs) : Bool :=
  a.title.isSome && a.description.isSome && a.content_type.isSome

/-- Type guard `isEditContentArgs`. -/
def isEditContentArgs (a : ParsedArgs) : Bool := a.content_id.isSome && a.changes.isSome

/-- JavaScript truthiness of an optional string (absent and `''` are falsy). -/
def jsTruthyStr : Option String → Bool
  | none => false
  | some s => s ≠ ""

/-- JavaScript truthiness of an optional boolean. -/
def jsTruthyBool : Option Bool → Bool
  | none => false
  | some b => b

/-- `a || d` for an optional string and a string default. -/
def jsOrStr (o : Option String) (d : String) : String :=
  match o with
  | some s => if s = "" then d else s
  | none => d

/-- `a || b || c || undefined`: first truthy string, if any. -/
def firstTruthy : List (Option String) → Option String
  | [] => none
  | o :: rest =>
    match o with
    | some s => if s = "" then firstTruthy rest else some s
    | none => firstTruthy rest

/-- An item of the content service's search response. -/
structure RawItem where
  title : String := ""
  post_type : Option String := none
  id : Option String := none
  link : Option String := none
  url : Option String := none
  post_url : Option String := none
deriving DecidableEq, Repr

/-- A JSON value of a field of the categorized response object: an array of
items, or something else. -/
inductive SvcVal
  | arrV (xs : List RawItem)
  | otherV
deriving DecidableEq, Repr

/-- The created/updated post object returned by the content service
(passed through verbatim by the executors; modelled opaquely). -/
structure SvcPost where
  payload : String
deriving DecidableEq, Repr

/-- The `content` field of a content-service response body. -/
inductive SvcContent
  | arrC (xs : List RawItem)
  | objC (fields : List (String × SvcVal))
  | postC (p : SvcPost)
  | nullC
deriving DecidableEq, Repr

/-- A content-service HTTP response (status/ok flag, parsed body). -/
structure SvcAnswer where
  ok : Bool
  status : Nat := 200
  errMessage : Option String := none
  content : SvcContent := .nullC
deriving DecidableEq, Repr

/-- The body of an outbound content-service request. -/
structure CreateBody where
  title : String
  post_type : String
  body : String
  subject_id : Option String := none
  problem_id : Option String := none
deriving DecidableEq, Repr

/-- The body of an `edit_content` update request; `body` stands for both
`content.body` and `content_attributes.body`, which the code always sets to
the same HTML. -/
structure EditBody where
  title : Option String := none
  body : Option String := none
deriving DecidableEq, Repr

/-- Outbound request body variants. -/
inductive ReqBody
  | emptyB
  | createB (b : CreateBody)
  | editB (b : EditBody)
deriving DecidableEq, Repr

/-- An outbound HTTP request to the content service. -/
structure HttpReq where
  method : String
  path : String
  body : ReqBody := .emptyB
  userTok : Option String := none
deriving DecidableEq, Repr

/-- A normalized `find_content` result item. -/
structure FoundItem where
  title : String
  type_ : String
  id : Option String := none
  link : Option String := none
deriving DecidableEq, Repr

/-- The preview object of an unconfirmed `create_content` call. -/
structure CreatePreview where
  title : String
  content_type : String
  description : String
  html : String
  plain_text : String
  parent_id : Option String := none
deriving DecidableEq, Repr

/-- The `CreateContentResult` interface. -/
structure CreateContentResult where
  requires_confirmation : Option Bool := none
  preview : Option CreatePreview := none
  instructions : Option String := none
  post : Option SvcPost := none
deriving DecidableEq, Repr

/-- The preview object of an unconfirmed `edit_content` call. -/
structure EditPreview where
  content_id : String
  title : Option String := none
  description : Option String := none
  html : Option String := none
  plain_text : Option String := none
deriving DecidableEq, Repr

/-- The `EditContentResult` interface. -/
structure EditContentResult where
  requires_confirmation : Option Bool := none
  preview : Option EditPreview := none
  instructions : Option String := none
  post : Option SvcPost := none
deriving DecidableEq, Repr

/-- A successful tool-executor result (`FunctionResult`). -/
inductive ExecResult
  | findR (items : List FoundItem)
  | createR (r : CreateContentResult)
  | editR (r : EditContentResult)
deriving DecidableEq, Repr

/-- An entry of the short-lived `toolResultCache`; the key is the pair
`(query, lowercased type)` that `JSON.stringify` renders into the cache key. -/
structure CacheEntry where
  expiryMs : Nat
  payload : ExecResult
deriving DecidableEq, Repr

/-- The `toolResultCache` map. -/
abbrev CacheMap := List ((String × String) × CacheEntry)

/-- `TOOL_CACHE_TTL_MS`. -/
def TOOL_CACHE_TTL_MS : Nat := 5000

/-- The effect of one executor invocation: the cache afterwards, the outbound
requests it issued, and its result (`.error` models a thrown exception). -/
structure ExecEff where
  cache : CacheMap
  requests : List HttpReq
  result : Except String ExecResult

/-- `array.map` step normalizing one service item. -/
def normItem (t : String) (item : RawItem) : FoundItem :=
  { title := item.title
    type_ := jsOrStr item.post_type t
    id := item.id
    link := firstTruthy [item.link, item.url, item.post_url] }

/-- `Array.isArray(content.K) ? content.K : []` for a bucket key. -/
def bucketArr (fields : List (String × SvcVal)) (k : String) : List RawItem :=
  match alookup k fields with
  | some (.arrV xs) => xs
  | _ => []

/-- `Object.values(content).find(v => Array.isArray(v)) || []`. -/
def firstArrayField : List (String × SvcVal) → List RawItem
  | [] => []
  | (_, .arrV xs) :: _ => xs
  | _ :: rest => firstArrayField rest

/-- The response-shape normalization of `find_content`: flat array, else
categorized buckets with a first-array-valued-field fallback, else empty. -/
def findSource (content : SvcContent) (t : String) : List RawItem :=
  match content with
  | .arrC xs => xs
  | .objC fields =>
    let source :=
      if t = "problem" ∨ t = "problems" then bucketArr fields "problems"
      else if t = "idea" ∨ t = "ideas" then bucketArr fields "ideas"
      else bucketArr fields "subjects"
    if source.length = 0 then
      let maybeArray := firstArrayField fields
      if maybeArray.length > 0 then maybeArray else source
    else source
  | .postC _ => []
  | .nullC => []

/-- The `find_content` executor. -/
def findContentExec (svc : HttpReq → SvcAnswer) (userToken : Option String)
    (cache : CacheMap) (now : Nat) (a : ParsedArgs) : ExecEff :=
  if ¬ isFindContentArgs a then
    ⟨cache, [], .error "Invalid arguments for content search"⟩
  else
    let postType := jsOrStr a.type_ "all"
    let key := (jsOrStr a.query "", postType.toLower)
    let hit := match alookup key cache with
      | some e => if now < e.expiryMs then some e.payload else none
      | none => none
    match hit with
    | some payload => ⟨cache, [], .ok payload⟩
    | none =>
      let req : HttpReq :=
        { method := "GET"
          path := "/api/v1/posts?type=" ++ postType ++ "&q[title_cont]=" ++ jsOrStr a.query ""
          userTok := userToken }
      let ans := svc req
      if ¬ ans.ok then
        ⟨cache, [req], .error ("API request failed: " ++ toString ans.status)⟩
      else
        let t := postType.toLower
        let items := (findSource ans.content t).map (normItem t)
        let result := ExecResult.findR items
        ⟨(key, ⟨now + TOOL_CACHE_TTL_MS, result⟩) :: cache, [req], .ok result⟩

/-- The resubmission instructions of the `create_content` preview. -/
def createInstructions : String :=
  "Please confirm this post before creation by calling create_content again with \"confirm\": true."

/-- Read `data.content.post` from a service answer, as the executors do after
a successful mutation (`data.content.post`; a missing `content` throws). -/
def readPost (content : SvcContent) : Except String (Option SvcPost) :=
  match content with
  | .postC p => .ok (some p)
  | .nullC => .error "Cannot read properties of undefined"
  | _ => .ok none

/-- The `create_content` executor: two-phase preview/commit. -/
def createContentExec (svc : HttpReq → SvcAnswer) (userToken : Option String)
    (cache : CacheMap) (a : ParsedArgs) : ExecEff :=
  if ¬ isCreateContentArgs a then
    ⟨cache, [], .error "Invalid arguments for content creation"⟩
  else
    let htmlBody := toRichHtml (a.description.getD "")
    let plainText := htmlToPlainText htmlBody
    let previewPayload : CreatePreview :=
      { title := a.title.getD ""
        content_type := a.content_type.getD ""
        description := a.description.getD ""
        html := htmlBody
        plain_text := plainText
        parent_id := a.parent_id }
    if ¬ jsTruthyBool a.confirm then
      ⟨cache, [],
        .ok (.createR { requires_confirmation := some true
                        preview := some previewPayload
                        instructions := some createInstructions })⟩
    else
      let base : CreateBody :=
        { title := jsOrStr a.title ""
          post_type := jsOrStr a.content_type ""
          body := htmlBody }
      let withParent :=
        if a.content_type = some "problem" ∧ jsTruthyStr a.parent_id then
          { base with subject_id := a.parent_id }
        else if a.content_type = some "idea" ∧ jsTruthyStr a.parent_id then
          { base with problem_id := a.parent_id }
        else base
      let req : HttpReq :=
        { method := "POST", path := "/api/v1/posts", body := .createB withParent
          userTok := userToken }
      let ans := svc req
      if ¬ ans.ok then
        ⟨cache, [req], .error ("API request failed: " ++ toString ans.status)⟩
      else
        match readPost ans.content with
        | .ok p => ⟨cache, [req], .ok (.createR { post := p })⟩
        | .error e => ⟨cache, [req], .error e⟩

/-- The resubmission instructions of the `edit_content` preview. -/
def editInstructions : String :=
  "Please confirm this edit by calling edit_content again with \"confirm\": true."

/-- The `edit_content` executor: two-phase preview/commit. -/
def editContentExec (svc : HttpReq → SvcAnswer) (userToken : Option String)
    (cache : CacheMap) (a : ParsedArgs) : ExecEff :=
  if ¬ isEditContentArgs a then
    ⟨cache, [], .error "Invalid arguments for content editing"⟩
  else
    let contentId := a.content_id.getD ""
    let ch := a.changes.getD {}
    let html := if jsTruthyStr ch.description
      then some (toRichHtml (ch.description.getD "")) else none
    let plainText := match html with
      | some h => if h = "" then none else some (htmlToPlainText h)
      | none => none
    let previewPayload : EditPreview :=
      { content_id := contentId
        title := ch.title
        description := ch.description
        html := html
        plain_text := plainText }
    if ¬ jsTruthyBool a.confirm then
      ⟨cache, [],
        .ok (.editR { requires_confirmation := some true
                      preview := some previewPayload
                      instructions := some editInstructions })⟩
    else
      let postBody : EditBody :=
        { title := if jsTruthyStr ch.title then ch.title else none
          body := if jsTruthyStr ch.description then html else none }
      let req : HttpReq :=
        { method := "PUT", path := "/posts/" ++ contentId ++ "/api_update"
          body := .editB postBody, userTok := userToken }
      let ans := svc req
      if ¬ ans.ok then
        ⟨cache, [req], .error ("API request failed: " ++ toString ans.status)⟩
      else
        match readPost ans.content with
        | .ok p => ⟨cache, [req], .ok (.editR { post := p })⟩
        | .error e => ⟨cache, [req], .error e⟩

/-- Dispatch on the tool name (`funcs[name](args)`); an unknown name throws
a `TypeError`, modelled as `.error`. -/
def invokeTool (svc : HttpReq → SvcAnswer) (userToken : Option String)
    (cache : CacheMap) (now : Nat) (name : String) (a : ParsedArgs) : ExecEff :=
  if name = "find_content" then findContentExec svc userToken cache now a
  else if name = "create_content" then createContentExec svc userToken cache a
  else if name = "edit_content" then editContentExec svc userToken cache a
  else ⟨cache, [], .error (name ++ " is not a function")⟩

/-! ### Messages and the per-round tool-call loop -/

/-- The content of a tool-result message: `JSON.stringify` of the executor
result, or of `{error: message}`.  Both stringifications are injective, so
the underlying values stand for the strings. -/
inductive ToolContent
  | okP (r : ExecResult)
  | errP (message : String)
deriving DecidableEq, Repr

/-- Message content: assistant/user/system text, or a tool-result payload. -/
inductive MsgContent
  | text (s : String)
  | payload (p : ToolContent)
deriving DecidableEq, Repr

/-- A chat message. -/
structure Message where
  role : String
  content : MsgContent := .text ""
  tool_calls : List ToolCallRec := []
  tool_call_id : Option String := none
  name : Option String := none
deriving DecidableEq, Repr

/-- A value stored in the per-round memo (`{name, content}`). -/
structure MemoVal where
  name : String
  content : ToolContent
deriving DecidableEq, Repr

/-- The per-round memo keyed by the tool name and canonicalized arguments. -/
abbrev RoundMemo := List ((String × ParsedArgs) × MemoVal)

/-- Build a tool-result message. -/
def toolMsg (tcId nm : String) (c : ToolContent) : Message :=
  { role := "tool", content := .payload c, tool_call_id := some tcId, name := some nm }

/-- The per-round tool-call loop.  Returns the executor-invocation trace (one
entry per actual executor call, in order) together with either the
tool-result messages and updated cache, or the exception that escaped the
loop.  `JSON.parse` of a malformed argument payload happens before the
per-call `try` and therefore aborts the whole loop. -/
def execCalls (svc : HttpReq → SvcAnswer) (userToken : Option String) (now : Nat) :
    List ToolCallRec → RoundMemo → CacheMap →
    List (String × ParsedArgs) × Except String (List Message × CacheMap)
  | [], _, cache => ([], .ok ([], cache))
  | tc :: rest, memo, cache =>
    match tc.arguments with
    | .malformed _ => ([], .error "Unexpected token in JSON")
    | .parsed a =>
      match alookup (tc.name, a) memo with
      | some v =>
        let r := execCalls svc userToken now rest memo cache
        (r.1, r.2.map (fun p => (toolMsg tc.id v.name v.content :: p.1, p.2)))
      | none =>
        let eff := invokeTool svc userToken cache now tc.name a
        match eff.result with
        | .ok res =>
          let r := execCalls svc userToken now rest
            (((tc.name, a), (⟨tc.name, .okP res⟩ : MemoVal)) :: memo) eff.cache
          ((tc.name, a) :: r.1,
            r.2.map (fun p => (toolMsg tc.id tc.name (.okP res) :: p.1, p.2)))
        | .error e =>
          let r := execCalls svc userToken now rest memo eff.cache
          ((tc.name, a) :: r.1,
            r.2.map (fun p => (toolMsg tc.id tc.name (.errP e) :: p.1, p.2)))

/-! ### The orchestration loop and the POST handlers -/

/-- One completion-backend response: a network/HTTP failure (with the HTTP
status when a response exists), a 2xx body without `choices[0].message`, or a
message with its reported token usage. -/
inductive BackendResp
  | fail (status : Option Nat)
  | invalid
  | okR (message : Message) (usage : Option Nat)

/-- A turn-level failure: the HTTP status the outer catch responds with, the
error message, and the number of completion-backend calls already made. -/
structure TurnErr where
  status : Nat
  msg : String
  calls : Nat
deriving DecidableEq, Repr

/-- What one completed tool round recorded: the assistant tool-call message,
its tool-result messages, and the context sent to the next backend call. -/
structure RoundLog where
  aMsg : Message
  results : List Message
  sentCtx : List Message
deriving DecidableEq, Repr

/-- The mutable state of the orchestration loop. -/
structure LoopSt where
  idx : Nat
  aMsg : Message
  used : Nat
  cache : CacheMap
  rounds : Nat
  calls : Nat
  logs : List RoundLog
deriving DecidableEq, Repr

/-- The response of the quota service to `POST /tokens`: the fetch threw, or
it answered with a non-success status (with the body's `message` field when
one parses), or it answered successfully with an optional `tokens` field. -/
inductive QuotaResp
  | netErr
  | httpFail (errMessage : Option String)
  | okTokens (tokens : Option Int)
deriving DecidableEq, Repr

/-- A `tokenCheckCache` entry. -/
structure TokCacheEntry where
  expiryMs : Nat
  remaining : Int
deriving DecidableEq, Repr

/-- The environment of one turn: backend responses by call index, the content
service, the quota service response, caches, the conversation store
(`src/utils/memory` is not under `src/`; per the spec it is an in-memory
mapping from conversation id to ordered message history, modelled as an
association list), and configuration. -/
structure Env where
  completions : Nat → BackendResp
  svc : HttpReq → SvcAnswer
  quota : QuotaResp := .okTokens (some 1)
  tokenCache : Option TokCacheEntry := none
  nowMs : Nat := 0
  toolCache : CacheMap := []
  store : List (String × List Message) := []
  systemPrompt : String := "SYSTEM"
  genId : String := "generated-id"
  hasApiKey : Bool := true
  maxContext : Nat := 16

/-- Is the assistant content falsy (`!assistantMessage.content`)? -/
def contentEmpty : MsgContent → Bool
  | .text s => s = ""
  | .payload _ => false

/-- The while loop handling tool calls.  The fuel is `5 - safetyCounter`, so
the loop body runs at most 5 times; `rounds` counts its iterations like
`safetyCounter` does. -/
def toolLoop (env : Env) (userToken : Option String) (reqMsgs : List Message) :
    Nat → LoopSt → Except TurnErr LoopSt
  | 0, st => .ok st
  | fuel + 1, st =>
    if st.aMsg.tool_calls = [] then .ok st
    else
      let eo := execCalls env.svc userToken env.nowMs st.aMsg.tool_calls [] st.cache
      match eo.2 with
      | .error e => .error ⟨500, e, st.calls⟩
      | .ok (results, cache2) =>
        let updated := reqMsgs ++ st.aMsg :: results
        let log : RoundLog := ⟨st.aMsg, results, updated⟩
        match env.completions st.idx with
        | .fail s => .error ⟨s.getD 500, "completion request failed", st.calls + 1⟩
        | .invalid => .error ⟨500, "Cannot read properties of undefined", st.calls + 1⟩
        | .okR m usage =>
          let used2 := st.used + usage.getD 0
          if contentEmpty m.content ∧ m.tool_calls = [] then
            match env.completions (st.idx + 1) with
            | .fail s => .error ⟨s.getD 500, "completion request failed", st.calls + 2⟩
            | .invalid => .error ⟨500, "Cannot read properties of undefined", st.calls + 2⟩
            | .okR m2 u2 =>
              .ok { idx := st.idx + 2, aMsg := m2, used := used2 + u2.getD 0
                    cache := cache2, rounds := st.rounds + 1, calls := st.calls + 2
                    logs := st.logs ++ [log] }
          else
            toolLoop env userToken reqMsgs fuel
              { idx := st.idx + 1, aMsg := m, used := used2, cache := cache2
                rounds := st.rounds + 1, calls := st.calls + 1, logs := st.logs ++ [log] }

/-- `list.slice(-n)`: the last `n` elements. -/
def sliceLast {α : Type} (n : Nat) (l : List α) : List α := l.drop (l.length - n)

/-- The context-window trimming of `requestMessages`: keep everything when it
fits; otherwise retain a leading system message and the most recent tail. -/
def trimContext (joined : List Message) (maxCtx : Nat) : List Message :=
  if joined.length ≤ maxCtx then joined
  else
    let system := match joined.head? with
      | some m => if m.role = "system" then [m] else []
      | none => []
    let tail := sliceLast (max 1 (maxCtx - system.length)) joined
    system ++ tail

/-- An inbound turn request body. -/
structure TurnReq where
  messages : List Message := []
  conversationId : Option String := none
  userToken : Option String := none

/-- A turn response body: a plain error, the 402 insufficient-tokens payload
(`{error, tokens: 0}`), or the success payload. -/
inductive RespBody
  | errorB (msg : String)
  | insufficientB (msg : String)
  | successB (conversationId : String) (message : Message) (usedTokens : Nat)
deriving DecidableEq, Repr

/-- The observable outcome of one turn: HTTP status, response body, how many
completion-backend requests were issued, and the `decrement_by` value of the
fire-and-forget quota decrement, when one is issued. -/
structure TurnResult where
  status : Nat
  body : RespBody
  completionCalls : Nat
  decrementReq : Option Nat
  usedTokens : Nat
deriving DecidableEq, Repr

/-- Outcome of the Access Gate (token check with short-lived cache). -/
inductive GateOut
  | allowed
  | insufficient (msg : String)
  | verifyFailed
deriving DecidableEq, Repr

/-- The token check: use the cached positive result when fresh, otherwise ask
the quota service; a non-success response or non-positive remaining quota is
the insufficient case, a thrown fetch is the 500 case. -/
def tokenGateMiss (env : Env) : GateOut :=
  match env.quota with
  | .netErr => .verifyFailed
  | .httpFail m => .insufficient (jsOrStr m "Insufficient tokens")
  | .okTokens t =>
    let remaining := t.getD 0
    if remaining ≤ 0 then .insufficient "Insufficient tokens" else .allowed

/-- The cache branch of the token check (`!cached || cached.expiryMs < now`
forces a fresh quota lookup). -/
def tokenGate (env : Env) : GateOut :=
  match env.tokenCache with
  | some c => if c.expiryMs < env.nowMs then tokenGateMiss env else .allowed
  | none => tokenGateMiss env

/-- Fallback content when tool calls were made but no text came back. -/
def fallbackWithTools : String :=
  "I\x27ve processed your request using the available tools. Please let me know if you need any additional information."

/-- Fallback content when no text came back without tool calls. -/
def fallbackPlain : String :=
  "I\x27ve processed your request. Please let me know if you need any additional information."

/-- Is the assistant content blank
(`!content || content.trim() === ''`)? -/
def contentBlank : MsgContent → Bool
  | .text s => jsTrimL s.data = []
  | .payload _ => false

/-- The conversation id of a turn (`conversationId || randomUUID()`). -/
def convIdOf (req : TurnReq) (env : Env) : String := jsOrStr req.conversationId env.genId

/-- Build `requestMessages`: prepend a system prompt when the stored history
has none, append the new messages, then trim to the context window. -/
def reqMsgsOf (req : TurnReq) (env : Env) : List Message :=
  let existingHistory := (alookup (convIdOf req env) env.store).getD []
  let hasSystem := existingHistory.any (fun m => m.role = "system")
  let baseHistory := if hasSystem then existingHistory
    else ({ role := "system", content := .text env.systemPrompt } : Message) :: existingHistory
  trimContext (baseHistory ++ req.messages) env.maxContext

/-- The final-fallback substitution for blank assistant content. -/
def finalizeMsg (aMsg : Message) : Message :=
  let fb := if aMsg.tool_calls ≠ [] then fallbackWithTools else fallbackPlain
  if contentBlank aMsg.content then { aMsg with content := MsgContent.text fb } else aMsg

/-- The `POST /api/chat` handler over the environment model. -/
def chatPOST (req : TurnReq) (env : Env) : TurnResult :=
  if ¬ jsTruthyStr req.userToken then
    ⟨401, .errorB "Unauthenticated: missing user token", 0, none, 0⟩
  else
    match tokenGate env with
    | .insufficient m => ⟨402, .insufficientB m, 0, none, 0⟩
    | .verifyFailed => ⟨500, .errorB "Token verification failed", 0, none, 0⟩
    | .allowed =>
      if ¬ env.hasApiKey then
        ⟨500, .errorB "OpenRouter API key is not configured", 0, none, 0⟩
      else
        match env.completions 0 with
        | .fail s => ⟨s.getD 500, .errorB "completion request failed", 1, none, 0⟩
        | .invalid => ⟨500, .errorB "Invalid response from OpenRouter API", 1, none, 0⟩
        | .okR m usage =>
          match toolLoop env req.userToken (reqMsgsOf req env) 5
              { idx := 1, aMsg := m, used := usage.getD 0, cache := env.toolCache
                rounds := 0, calls := 1, logs := [] } with
          | .error e => ⟨e.status, .errorB e.msg, e.calls, none, 0⟩
          | .ok stF =>
            ⟨200, .successB (convIdOf req env) (finalizeMsg stF.aMsg) stF.used, stF.calls,
              some (max 1 stF.used), stF.used⟩

/-- The result of the history route: status plus either the `messages` field
or the error message. -/
structure HistResult where
  status : Nat
  messages : Option (List Message)
  errMsg : Option String
deriving DecidableEq, Repr

/-- The `POST /api/chat/history` handler.  The conversation store
(`src/utils/memory`, not under `src/`) is, per the spec, an in-memory
mapping from conversation id to ordered message history, supplied here as an
association list. -/
def historyPOST (conversationId : Option String) (store : List (String × List Message)) :
    HistResult :=
  if ¬ jsTruthyStr conversationId then
    ⟨400, none, some "Conversation ID is required"⟩
  else
    match alookup (conversationId.getD "") store with
    | none => ⟨200, some [], none⟩
    | some history =>
      if history.length = 0 then ⟨200, some [], none⟩
      else ⟨200, some (history.filter (fun m => m.role ≠ "system")), none⟩

/-! ### Concrete fixtures used by witnesses and counterexamples -/

/-- A system message. -/
def mSys : Message := { role := "system", content := .text "S" }

/-- A user message. -/
def mU1 : Message := { role := "user", content := .text "one" }

/-- Another user message. -/
def mU2 : Message := { role := "user", content := .text "two" }

/-- A plain assistant text message. -/
def mHi : Message := { role := "assistant", content := .text "hi" }

/-- A content service that always answers 200 with an empty flat list. -/
def svcW : HttpReq → SvcAnswer := fun _ => { ok := true, content := .arrC [] }

/-- An environment whose backend immediately answers with plain text. -/
def envPlain : Env :=
  { completions := fun _ => .okR mHi none
    svc := svcW
    tokenCache := some ⟨100, 5⟩ }

/-- A turn request carrying a user token. -/
def reqTok : TurnReq := { messages := [mU1], userToken := some "u" }

/-- An environment whose quota service reports zero tokens (no cached check). -/
def envNoQuota : Env :=
  { completions := fun _ => .okR mHi none
    svc := svcW
    quota := .okTokens (some 0) }

/-- A tool call requesting a `create_content` preview (no `confirm`). -/
def tcPreview : ToolCallRec :=
  ⟨"prev1", "create_content",
    .parsed { title := some "T", description := some "D", content_type := some "subject" }⟩

/-- An assistant message carrying one preview tool call. -/
def mAskTool : Message := { role := "assistant", content := .text "", tool_calls := [tcPreview] }

/-- An environment whose backend keeps requesting tool calls forever. -/
def envLoop : Env :=
  { completions := fun _ => .okR mAskTool (some 1)
    svc := svcW
    tokenCache := some ⟨100, 5⟩ }

/-- The initial loop state built by the handler after the first backend call. -/
def stInit : LoopSt :=
  { idx := 1, aMsg := mAskTool, used := 1, cache := [], rounds := 0, calls := 1, logs := [] }

/-! ### C9: history route -/

/-- Claim C9: a history request without a truthy conversation id gets status
400; an id with no stored history (unknown id or empty list) gets status 200
with an empty `messages` array; and whenever a `messages` array is returned,
every message in it has a role different from `system`. -/
theorem history_route_behavior (cid : Option String) (store : List (String × List Message)) :
    (jsTruthyStr cid = false →
      historyPOST cid store = ⟨400, none, some "Conversation ID is required"⟩)
    ∧ (jsTruthyStr cid = true → alookup (cid.getD "") store = none →
        historyPOST cid store = ⟨200, some [], none⟩)
    ∧ (jsTruthyStr cid = true → alookup (cid.getD "") store = some [] →
        historyPOST cid store = ⟨200, some [], none⟩)
    ∧ (∀ ms m, (historyPOST cid store).messages = some ms → m ∈ ms →
        m.role ≠ "system") := by
  refine ⟨?_, ?_, ?_, ?_⟩
  · intro h
    simp [historyPOST, h]
  · intro h hl
    simp [historyPOST, h, hl]
  · intro h hl
    simp [historyPOST, h, hl]
  · intro ms m hms hm
    by_cases h : jsTruthyStr cid
    · rcases hl : alookup (cid.getD "") store with _ | history
      · simp [historyPOST, h, hl] at hms
        subst hms
        simp at hm
      · by_cases hlen : history.length = 0
        · simp [historyPOST, h, hl, hlen] at hms
          subst hms
          simp at hm
        · simp [historyPOST, h, hl, hlen] at hms
          subst hms
          have := (List.mem_filter.mp hm).2
          simpa using this
    · simp [historyPOST, h] at hms

/-- Witness for C9 at concrete inputs: a missing id yields 400, and a stored
conversation with a system message returns it filtered out. -/
theorem history_route_behavior_witness :
    historyPOST none [] = ⟨400, none, some "Conversation ID is required"⟩
    ∧ ((historyPOST (some "c") [("c", [mSys, mU1])]).messages = some [mU1] →
        mU1 ∈ [mU1] → mU1.role ≠ "system") :=
  ⟨(history_route_behavior none []).1 rfl,
   fun hms hm => (history_route_behavior (some "c") [("c", [mSys, mU1])]).2.2.2 [mU1] mU1 hms hm⟩

/-! ### C6: context trimming keeps the system message -/

/-- Claim C6: whenever the combined message list starts with a system
message, the trimmed request context also starts with that very message, and
when the combined list exceeds the limit the result is exactly that system
message followed by the most recent tail the code keeps. -/
theorem trim_keeps_system (joined : List Message) (maxCtx : Nat) (m0 : Message)
    (h0 : joined.head? = some m0) (hrole : m0.role = "system") :
    (trimContext joined maxCtx).head? = some m0
    ∧ (joined.length > maxCtx →
        trimContext joined maxCtx = m0 :: sliceLast (max 1 (maxCtx - 1)) joined) := by
  unfold trimContext
  by_cases hle : joined.length ≤ maxCtx
  · refine ⟨by simp [hle, h0], fun hgt => absurd hle (by omega)⟩
  · simp only [hle, if_false, h0, hrole, if_true]
    constructor
    · simp
    · intro _
      simp

/-- Witness for C6: trimming a three-message list with a leading system
message down to a window of 2 keeps the system message in front. -/
theorem trim_keeps_system_witness :
    trimContext [mSys, mU1, mU2] 2 = mSys :: sliceLast (max 1 (2 - 1)) [mSys, mU1, mU2] :=
  (trim_keeps_system [mSys, mU1, mU2] 2 mSys rfl rfl).2 (by decide)

/-! ### C10: quota decrement is at least one -/

/-- Claim C10: a turn that completes successfully issues a quota decrement of
exactly `max 1 usedTokens`, which is at least 1 even when every round
reported zero usage. -/
theorem decrement_at_least_one (req : TurnReq) (env : Env) (cid : String)
    (msg : Message) (used : Nat)
    (h : (chatPOST req env).body = .successB cid msg used) :
    (chatPOST req env).decrementReq = some (max 1 used) ∧
      ∀ d, (chatPOST req env).decrementReq = some d → 1 ≤ d := by
  by_cases h1 : jsTruthyStr req.userToken
  · rcases hg : tokenGate env with _ | m | _
    · by_cases h2 : env.hasApiKey
      · rcases hc : env.completions 0 with s | - | ⟨m0, usage⟩
        · simp [chatPOST, h1, hg, h2, hc] at h
        · simp [chatPOST, h1, hg, h2, hc] at h
        · rcases hL : toolLoop env req.userToken (reqMsgsOf req env) 5
              { idx := 1, aMsg := m0, used := usage.getD 0, cache := env.toolCache
                rounds := 0, calls := 1, logs := [] } with e | stF
          · simp [chatPOST, h1, hg, h2, hc, hL] at h
          · have hred : chatPOST req env =
                ⟨200, .successB (convIdOf req env) (finalizeMsg stF.aMsg) stF.used, stF.calls,
                  some (max 1 stF.used), stF.used⟩ := by
              simp [chatPOST, h1, hg, h2, hc, hL]
            rw [hred] at h ⊢
            simp only [RespBody.successB.injEq] at h
            obtain ⟨-, -, hu⟩ := h
            subst hu
            refine ⟨rfl, ?_⟩
            intro d hd
            have hmax : max 1 stF.used = d := by simpa using hd
            subst hmax
            exact Nat.le_max_left 1 stF.used
      · simp [chatPOST, h1, hg, h2] at h
    · simp [chatPOST, h1, hg] at h
    · simp [chatPOST, h1, hg] at h
  · simp [chatPOST, h1] at h

/-- Witness for C10: a turn that completes with zero reported usage issues a
decrement of `max 1 0 = 1`. -/
theorem decrement_at_least_one_witness :
    (chatPOST reqTok envPlain).decrementReq = some (max 1 0) :=
  (decrement_at_least_one reqTok envPlain "generated-id" mHi 0 (by decide)).1

/-! ### C4: quota rejection happens before any completion call -/

/-- Claim C4: when the token check is not served from the cache and the quota
service answers with a non-success status or a non-positive remaining quota,
the turn ends with status 402, a distinguishable insufficient-quota body, and
zero requests to the completion backend. -/
theorem quota_reject_before_backend (req : TurnReq) (env : Env)
    (hmiss : env.tokenCache = none ∨ ∃ c, env.tokenCache = some c ∧ c.expiryMs < env.nowMs)
    (hbad : (∃ m, env.quota = .httpFail m) ∨ ∃ t, env.quota = .okTokens t ∧ t.getD 0 ≤ 0)
    (htok : jsTruthyStr req.userToken = true) :
    (chatPOST req env).status = 402
    ∧ (∃ m, (chatPOST req env).body = .insufficientB m)
    ∧ (chatPOST req env).completionCalls = 0 := by
  have hmissGate : tokenGate env = tokenGateMiss env := by
    rcases hmiss with h | ⟨c, hc, hlt⟩
    · simp [tokenGate, h]
    · simp [tokenGate, hc, hlt]
  have hins : ∃ m, tokenGateMiss env = .insufficient m := by
    rcases hbad with ⟨m, hm⟩ | ⟨t, ht, hle⟩
    · exact ⟨jsOrStr m "Insufficient tokens", by simp [tokenGateMiss, hm]⟩
    · exact ⟨"Insufficient tokens", by simp [tokenGateMiss, ht, hle]⟩
  obtain ⟨m, hm⟩ := hins
  have hgate : tokenGate env = .insufficient m := hmissGate.trans hm
  exact ⟨by simp [chatPOST, htok, hgate], ⟨m, by simp [chatPOST, htok, hgate]⟩,
    by simp [chatPOST, htok, hgate]⟩

/-- Witness for C4: an uncached quota response of zero tokens yields 402 and
no completion-backend call. -/
theorem quota_reject_witness :
    (chatPOST reqTok envNoQuota).status = 402
    ∧ (chatPOST reqTok envNoQuota).completionCalls = 0 :=
  ⟨(quota_reject_before_backend reqTok envNoQuota (Or.inl rfl)
      (Or.inr ⟨some 0, rfl, by decide⟩) rfl).1,
   (quota_reject_before_backend reqTok envNoQuota (Or.inl rfl)
      (Or.inr ⟨some 0, rfl, by decide⟩) rfl).2.2⟩

/-! ### C5: the loop runs at most 5 rounds -/

/-- Helper: the loop's round counter grows by at most the available fuel. -/
theorem toolLoop_rounds_le (env : Env) (ut : Option String) (ctx : List Message) :
    ∀ (fuel : Nat) (st out : LoopSt),
      toolLoop env ut ctx fuel st = .ok out → out.rounds ≤ st.rounds + fuel := by
  intro fuel
  induction fuel with
  | zero =>
    intro st out h
    rw [toolLoop] at h
    cases h
    omega
  | succ n ih =>
    intro st out h
    rw [toolLoop] at h
    by_cases hnc : st.aMsg.tool_calls = []
    · rw [if_pos hnc] at h
      cases h
      omega
    · rw [if_neg hnc] at h
      simp only [] at h
      rcases he : (execCalls env.svc ut env.nowMs st.aMsg.tool_calls [] st.cache).2
        with e | ⟨results, cache2⟩
      · rw [he] at h
        simp at h
      · rw [he] at h
        simp only [] at h
        rcases hc : env.completions st.idx with s | - | ⟨m2, u2⟩
        · rw [hc] at h
          simp at h
        · rw [hc] at h
          simp at h
        · rw [hc] at h
          simp only [] at h
          by_cases hforce : contentEmpty m2.content = true ∧ m2.tool_calls = []
          · rw [if_pos hforce] at h
            rcases hc2 : env.completions (st.idx + 1) with s2 | - | ⟨m3, u3⟩
            · rw [hc2] at h
              simp at h
            · rw [hc2] at h
              simp at h
            · rw [hc2] at h
              cases h
              simp only [LoopSt.rounds]
              omega
          · rw [if_neg hforce] at h
            have hr := ih _ _ h
            simp only [LoopSt.rounds] at hr
            omega

/-- Claim C5: with a fresh round counter and the handler's fuel of 5, a
completed loop has executed at most 5 rounds; and with the bound already
exhausted the loop exits at once with the assistant message it last had. -/
theorem loop_at_most_five_rounds (env : Env) (ut : Option String) (ctx : List Message)
    (st out : LoopSt) (hst : st.rounds = 0)
    (h : toolLoop env ut ctx 5 st = .ok out) :
    out.rounds ≤ 5 ∧ toolLoop env ut ctx 0 st = .ok st := by
  refine ⟨?_, rfl⟩
  have := toolLoop_rounds_le env ut ctx 5 st out h
  omega

/-- The loop state produced by an environment that requests tool calls on
every backend response. -/
def loopOutW : LoopSt := (toolLoop envLoop (some "u") [] 5 stInit).toOption.getD stInit

/-- Witness for C5: against a backend that always requests more tool calls,
the loop stops after exactly 5 rounds. -/
theorem loop_at_most_five_rounds_witness : loopOutW.rounds ≤ 5 :=
  (loop_at_most_five_rounds envLoop (some "u") [] stInit loopOutW rfl rfl).1

/-! ### C1: the confirm flag gates external mutation -/

/-- Claim C1: with a valid argument shape, `create_content` and
`edit_content` issue no HTTP request and return a preview result carrying
`requires_confirmation = true` and resubmission instructions when `confirm`
is not truthy; with `confirm: true` each issues exactly one mutating request
(a `POST` to the posts endpoint, resp. a `PUT` to the update endpoint of the
addressed post). -/
theorem confirm_gates_mutation (svc : HttpReq → SvcAnswer) (ut : Option String)
    (cache : CacheMap) (a : ParsedArgs) :
    (isCreateContentArgs a = true →
      (jsTruthyBool a.confirm = false →
        (createContentExec svc ut cache a).requests = []
        ∧ ∃ res, (createContentExec svc ut cache a).result = .ok (.createR res)
            ∧ res.requires_confirmation = some true
            ∧ res.instructions = some createInstructions
            ∧ res.preview.isSome = true
            ∧ res.post = none)
      ∧ (jsTruthyBool a.confirm = true →
          (createContentExec svc ut cache a).requests.map (fun r => (r.method, r.path))
            = [("POST", "/api/v1/posts")]))
    ∧ (isEditContentArgs a = true →
      (jsTruthyBool a.confirm = false →
        (editContentExec svc ut cache a).requests = []
        ∧ ∃ res, (editContentExec svc ut cache a).result = .ok (.editR res)
            ∧ res.requires_confirmation = some true
            ∧ res.instructions = some editInstructions
            ∧ res.preview.isSome = true
            ∧ res.post = none)
      ∧ (jsTruthyBool a.confirm = true →
          (editContentExec svc ut cache a).requests.map (fun r => (r.method, r.path))
            = [("PUT", "/posts/" ++ a.content_id.getD "" ++ "/api_update")])) := by
  constructor
  · intro hshape
    constructor
    · intro hconf
      unfold createContentExec
      rw [if_neg (by simp [hshape]), if_pos (by simp [hconf])]
      exact ⟨rfl, _, rfl, rfl, rfl, rfl, rfl⟩
    · intro hconf
      unfold createContentExec
      rw [if_neg (by simp [hshape]), if_neg (by simp [hconf])]
      simp only []
      repeat' split
      all_goals rfl
  · intro hshape
    constructor
    · intro hconf
      unfold editContentExec
      rw [if_neg (by simp [hshape]), if_pos (by simp [hconf])]
      exact ⟨rfl, _, rfl, rfl, rfl, rfl, rfl⟩
    · intro hconf
      unfold editContentExec
      rw [if_neg (by simp [hshape]), if_neg (by simp [hconf])]
      simp only []
      repeat' split
      all_goals rfl

/-- Valid `create_content` arguments without `confirm`. -/
def aCreateW : ParsedArgs :=
  { title := some "T", description := some "D", content_type := some "subject" }

/-- The same `create_content` arguments resubmitted with `confirm: true`. -/
def aCreateWC : ParsedArgs := { aCreateW with confirm := some true }

/-- Valid `edit_content` arguments without `confirm`. -/
def aEditW : ParsedArgs := { content_id := some "42", changes := some { title := some "N" } }

/-- The same `edit_content` arguments resubmitted with `confirm: true`. -/
def aEditWC : ParsedArgs := { aEditW with confirm := some true }

/-- Witness for C1 at concrete arguments: no request without `confirm`,
exactly the one mutating request with it, for both executors. -/
theorem confirm_gates_mutation_witness :
    (createContentExec svcW none [] aCreateW).requests = []
    ∧ (createContentExec svcW none [] aCreateWC).requests.map (fun r => (r.method, r.path))
        = [("POST", "/api/v1/posts")]
    ∧ (editContentExec svcW none [] aEditW).requests = []
    ∧ (editContentExec svcW none [] aEditWC).requests.map (fun r => (r.method, r.path))
        = [("PUT", "/posts/" ++ aEditWC.content_id.getD "" ++ "/api_update")] :=
  ⟨(((confirm_gates_mutation svcW none [] aCreateW).1 rfl).1 rfl).1,
   ((confirm_gates_mutation svcW none [] aCreateWC).1 rfl).2 rfl,
   (((confirm_gates_mutation svcW none [] aEditW).2 rfl).1 rfl).1,
   ((confirm_gates_mutation svcW none [] aEditWC).2 rfl).2 rfl⟩

/-! ### Helper lemmas on the per-round tool loop -/

/-- Helper: a completed round yields exactly one tool-result message per tool
call, tagged with the calls' ids in batch order. -/
theorem execCalls_ids (svc : HttpReq → SvcAnswer) (ut : Option String) (now : Nat) :
    ∀ (calls : List ToolCallRec) (memo : RoundMemo) (cache : CacheMap)
      (msgs : List Message) (cache2 : CacheMap),
      (execCalls svc ut now calls memo cache).2 = .ok (msgs, cache2) →
      msgs.map (fun m => m.tool_call_id) = calls.map (fun tc => some tc.id) := by
  intro calls
  induction calls with
  | nil =>
    intro memo cache msgs cache2 h
    simp only [execCalls, Except.ok.injEq, Prod.mk.injEq] at h
    obtain ⟨h1, -⟩ := h
    subst h1
    rfl
  | cons tc rest ih =>
    intro memo cache msgs cache2 h
    rw [execCalls] at h
    split at h
    · simp at h
    · rename_i a harg
      split at h
      · rename_i v hk
        simp only [] at h
        rcases ho : (execCalls svc ut now rest memo cache).2 with e2 | ⟨ms, c⟩
        · rw [ho] at h
          simp only [Except.map] at h
          simp at h
        · rw [ho] at h
          simp only [Except.map, Except.ok.injEq, Prod.mk.injEq] at h
          obtain ⟨h1, -⟩ := h
          subst h1
          have htail := ih memo cache ms c ho
          simp [toolMsg, htail]
      · rename_i hk
        simp only [] at h
        split at h
        · rename_i res hres
          rcases ho : (execCalls svc ut now rest
              (((tc.name, a), (⟨tc.name, .okP res⟩ : MemoVal)) :: memo)
              (invokeTool svc ut cache now tc.name a).cache).2 with e2 | ⟨ms, c⟩
          · rw [ho] at h
            simp only [Except.map] at h
            simp at h
          · rw [ho] at h
            simp only [Except.map, Except.ok.injEq, Prod.mk.injEq] at h
            obtain ⟨h1, -⟩ := h
            subst h1
            have htail := ih (((tc.name, a), (⟨tc.name, .okP res⟩ : MemoVal)) :: memo)
              (invokeTool svc ut cache now tc.name a).cache ms c ho
            simp [toolMsg, htail]
        · rename_i e hres
          simp only [] at h
          rcases ho : (execCalls svc ut now rest memo
              (invokeTool svc ut cache now tc.name a).cache).2 with e2 | ⟨ms, c⟩
          · rw [ho] at h
            simp only [Except.map] at h
            simp at h
          · rw [ho] at h
            simp only [Except.map, Except.ok.injEq, Prod.mk.injEq] at h
            obtain ⟨h1, -⟩ := h
            subst h1
            have htail := ih memo (invokeTool svc ut cache now tc.name a).cache ms c ho
            simp [toolMsg, htail]

/-! ### C2: malformed arguments versus throwing executors -/

/-- Does a tool-result message carry an error payload? -/
def contentIsErr : MsgContent → Bool
  | .payload (.errP _) => true
  | _ => false

/-- A tool call whose argument payload fails `JSON.parse`. -/
def tcBad : ToolCallRec := ⟨"bad1", "find_content", .malformed "not json"⟩

/-- A well-formed `find_content` call. -/
def tcFind : ToolCallRec := ⟨"good1", "find_content", .parsed { query := some "q" }⟩

/-- A well-formed call whose executor throws (invalid argument shape). -/
def tcShapeErr : ToolCallRec := ⟨"shape1", "create_content", .parsed {}⟩

/-- An assistant message requesting the malformed call and a good call. -/
def mAskBad : Message :=
  { role := "assistant", content := .text "", tool_calls := [tcBad, tcFind] }

/-- An environment whose first backend response requests `[tcBad, tcFind]`. -/
def envMal : Env :=
  { completions := fun _ => .okR mAskBad none
    svc := svcW
    tokenCache := some ⟨100, 5⟩ }

/-- Claim C2 fails on the code: `JSON.parse` of the argument payload runs
before the per-call `try`, so a malformed payload aborts the whole round (no
tool-result message, the rest of the batch never executes) and surfaces as a
turn-level 500 — while a thrown executor error is indeed caught per call and
the batch continues.  Evaluated at the concrete failing batch. -/
theorem malformed_args_abort_turn :
    (execCalls svcW (some "u") 0 [tcBad, tcFind] [] []).2 = .error "Unexpected token in JSON"
    ∧ (execCalls svcW (some "u") 0 [tcBad, tcFind] [] []).1 = []
    ∧ (chatPOST reqTok envMal).status = 500
    ∧ (execCalls svcW (some "u") 0 [tcShapeErr, tcFind] [] []).2.toOption.map
        (fun p => p.1.map (fun m => (m.tool_call_id, contentIsErr m.content)))
      = some [(some "shape1", true), (some "good1", false)] := by
  refine ⟨rfl, rfl, ?_, rfl⟩
  rfl

/-! ### C3: per-round deduplication -/

/-- Helper: on a round where no execution failed, there is one content
assignment per `(name, arguments)` key, consistent with the incoming memo,
that every produced tool-result message follows. -/
theorem execCalls_content (svc : HttpReq → SvcAnswer) (ut : Option String) (now : Nat) :
    ∀ (calls : List ToolCallRec) (memo : RoundMemo) (cache : CacheMap)
      (msgs : List Message) (cache2 : CacheMap),
      (execCalls svc ut now calls memo cache).2 = .ok (msgs, cache2) →
      (∀ m ∈ msgs, contentIsErr m.content = false) →
      ∃ f : String × ParsedArgs → ToolContent,
        (∀ k v, alookup k memo = some v → f k = v.content)
        ∧ ∀ (i : Nat) (tc : ToolCallRec), calls[i]? = some tc →
            ∀ (a : ParsedArgs), tc.arguments = .parsed a →
            msgs[i]?.map (fun m => m.content) = some (.payload (f (tc.name, a))) := by
  intro calls
  induction calls with
  | nil =>
    intro memo cache msgs cache2 h hok
    simp only [execCalls, Except.ok.injEq, Prod.mk.injEq] at h
    obtain ⟨h1, -⟩ := h
    subst h1
    refine ⟨fun k => match alookup k memo with
      | some v => v.content
      | none => .errP "unused", ?_, ?_⟩
    · intro k v hk
      simp [hk]
    · intro i tc hi
      cases i <;> exact Option.noConfusion hi
  | cons tc rest ih =>
    intro memo cache msgs cache2 h hok
    rw [execCalls] at h
    split at h
    · simp at h
    · rename_i a harg
      split at h
      · rename_i v hk
        simp only [] at h
        rcases ho : (execCalls svc ut now rest memo cache).2 with e2 | ⟨ms, c⟩
        · rw [ho] at h
          simp only [Except.map] at h
          simp at h
        · rw [ho] at h
          simp only [Except.map, Except.ok.injEq, Prod.mk.injEq] at h
          obtain ⟨h1, -⟩ := h
          subst h1
          have hok2 : ∀ m ∈ ms, contentIsErr m.content = false := by
            intro m hm
            exact hok m (List.mem_cons_of_mem _ hm)
          obtain ⟨f, hf1, hf2⟩ := ih memo cache ms c ho hok2
          refine ⟨f, hf1, ?_⟩
          intro i tcI hi aI haI
          cases i with
          | zero =>
            simp only [List.getElem?_cons_zero, Option.some.injEq] at hi
            subst hi
            rw [harg] at haI
            cases haI
            simp [toolMsg, hf1 (tc.name, a) v hk]
          | succ n =>
            rw [List.getElem?_cons_succ] at hi
            rw [List.getElem?_cons_succ]
            exact hf2 n tcI hi aI haI
      · rename_i hk
        simp only [] at h
        split at h
        · rename_i res hres
          rcases ho : (execCalls svc ut now rest
              (((tc.name, a), (⟨tc.name, .okP res⟩ : MemoVal)) :: memo)
              (invokeTool svc ut cache now tc.name a).cache).2 with e2 | ⟨ms, c⟩
          · rw [ho] at h
            simp only [Except.map] at h
            simp at h
          · rw [ho] at h
            simp only [Except.map, Except.ok.injEq, Prod.mk.injEq] at h
            obtain ⟨h1, -⟩ := h
            subst h1
            have hok2 : ∀ m ∈ ms, contentIsErr m.content = false := by
              intro m hm
              exact hok m (List.mem_cons_of_mem _ hm)
            obtain ⟨f, hf1, hf2⟩ := ih (((tc.name, a), (⟨tc.name, .okP res⟩ : MemoVal)) :: memo)
              (invokeTool svc ut cache now tc.name a).cache ms c ho hok2
            have hfkey : f (tc.name, a) = .okP res := by
              have := hf1 (tc.name, a) (⟨tc.name, .okP res⟩ : MemoVal) (by simp [alookup])
              simpa using this
            refine ⟨f, ?_, ?_⟩
            · intro k v hkv
              have hne : k ≠ (tc.name, a) := by
                intro hkk
                rw [hkk, hk] at hkv
                cases hkv
              apply hf1
              simp [alookup, hne]
              exact hkv
            · intro i tcI hi aI haI
              cases i with
              | zero =>
                simp only [List.getElem?_cons_zero, Option.some.injEq] at hi
                subst hi
                rw [harg] at haI
                cases haI
                simp [toolMsg, hfkey]
              | succ n =>
                rw [List.getElem?_cons_succ] at hi
                rw [List.getElem?_cons_succ]
                exact hf2 n tcI hi aI haI
        · rename_i e hres
          rcases ho : (execCalls svc ut now rest memo
              (invokeTool svc ut cache now tc.name a).cache).2 with e2 | ⟨ms, c⟩
          · rw [ho] at h
            simp only [Except.map] at h
            simp at h
          · rw [ho] at h
            simp only [Except.map, Except.ok.injEq, Prod.mk.injEq] at h
            obtain ⟨h1, -⟩ := h
            subst h1
            have hbad := hok (toolMsg tc.id tc.name (.errP e)) (List.mem_cons_self _ _)
            simp [toolMsg, contentIsErr] at hbad

/-- Helper: on a round where no execution failed, the invocation trace has no
duplicate `(name, arguments)` pair, and every traced pair was absent from the
incoming memo. -/
theorem execCalls_trace_fresh (svc : HttpReq → SvcAnswer) (ut : Option String) (now : Nat) :
    ∀ (calls : List ToolCallRec) (memo : RoundMemo) (cache : CacheMap)
      (msgs : List Message) (cache2 : CacheMap),
      (execCalls svc ut now calls memo cache).2 = .ok (msgs, cache2) →
      (∀ m ∈ msgs, contentIsErr m.content = false) →
      (execCalls svc ut now calls memo cache).1.Nodup
      ∧ ∀ k ∈ (execCalls svc ut now calls memo cache).1, alookup k memo = none := by
  intro calls
  induction calls with
  | nil =>
    intro memo cache msgs cache2 h hok
    simp [execCalls]
  | cons tc rest ih =>
    intro memo cache msgs cache2 h hok
    rw [execCalls] at h
    rw [execCalls]
    split at h
    · simp at h
    · rename_i a harg
      split at h
      · rename_i v hk
        simp only [] at h ⊢
        rcases ho : (execCalls svc ut now rest memo cache).2 with e2 | ⟨ms, c⟩
        · rw [ho] at h
          simp only [Except.map] at h
          simp at h
        · rw [ho] at h
          simp only [Except.map, Except.ok.injEq, Prod.mk.injEq] at h
          obtain ⟨h1, -⟩ := h
          subst h1
          have hok2 : ∀ m ∈ ms, contentIsErr m.content = false := by
            intro m hm
            exact hok m (List.mem_cons_of_mem _ hm)
          exact ih memo cache ms c ho hok2
      · rename_i hk
        simp only [] at h ⊢
        split at h
        · rename_i res hres
          simp only [] at h ⊢
          rcases ho : (execCalls svc ut now rest
              (((tc.name, a), (⟨tc.name, .okP res⟩ : MemoVal)) :: memo)
              (invokeTool svc ut cache now tc.name a).cache).2 with e2 | ⟨ms, c⟩
          · rw [ho] at h
            simp only [Except.map] at h
            simp at h
          · rw [ho] at h
            simp only [Except.map, Except.ok.injEq, Prod.mk.injEq] at h
            obtain ⟨h1, -⟩ := h
            subst h1
            have hok2 : ∀ m ∈ ms, contentIsErr m.content = false := by
              intro m hm
              exact hok m (List.mem_cons_of_mem _ hm)
            obtain ⟨hnd, hfr⟩ := ih (((tc.name, a), (⟨tc.name, .okP res⟩ : MemoVal)) :: memo)
              (invokeTool svc ut cache now tc.name a).cache ms c ho hok2
            constructor
            · refine List.nodup_cons.mpr ⟨?_, hnd⟩
              intro hmem
              have := hfr _ hmem
              simp [alookup] at this
            · intro k hkmem
              rcases List.mem_cons.mp hkmem with hkk | hkt
              · subst hkk
                exact hk
              · have := hfr _ hkt
                simp only [alookup] at this
                split at this
                · cases this
                · assumption
        · rename_i e hres
          simp only [] at h ⊢
          rcases ho : (execCalls svc ut now rest memo
              (invokeTool svc ut cache now tc.name a).cache).2 with e2 | ⟨ms, c⟩
          · rw [ho] at h
            simp only [Except.map] at h
            simp at h
          · rw [ho] at h
            simp only [Except.map, Except.ok.injEq, Prod.mk.injEq] at h
            obtain ⟨h1, -⟩ := h
            subst h1
            have hbad := hok (toolMsg tc.id tc.name (.errP e)) (List.mem_cons_self _ _)
            simp [toolMsg, contentIsErr] at hbad

/-- Helper: on a completed round, every well-formed call's pair is either in
the invocation trace or was already memoized on entry. -/
theorem execCalls_covers (svc : HttpReq → SvcAnswer) (ut : Option String) (now : Nat) :
    ∀ (calls : List ToolCallRec) (memo : RoundMemo) (cache : CacheMap)
      (msgs : List Message) (cache2 : CacheMap),
      (execCalls svc ut now calls memo cache).2 = .ok (msgs, cache2) →
      ∀ tc ∈ calls, ∀ a, tc.arguments = .parsed a →
        (tc.name, a) ∈ (execCalls svc ut now calls memo cache).1
        ∨ (alookup (tc.name, a) memo).isSome = true := by
  intro calls
  induction calls with
  | nil =>
    intro memo cache msgs cache2 h tc htc
    simp at htc
  | cons tc0 rest ih =>
    intro memo cache msgs cache2 h tc htc a ha
    rw [execCalls] at h
    rw [execCalls]
    split at h
    · simp at h
    · rename_i a0 harg
      split at h
      · rename_i v hk
        simp only [] at h ⊢
        rcases ho : (execCalls svc ut now rest memo cache).2 with e2 | ⟨ms, c⟩
        · rw [ho] at h
          simp only [Except.map] at h
          simp at h
        · rcases List.mem_cons.mp htc with hh | ht
          · subst hh
            rw [harg] at ha
            cases ha
            right
            simp [hk]
          · exact ih memo cache ms c (by rw [ho]) tc ht a ha
      · rename_i hk
        simp only [] at h ⊢
        split at h
        · rename_i res hres
          simp only [] at h ⊢
          rcases ho : (execCalls svc ut now rest
              (((tc0.name, a0), (⟨tc0.name, .okP res⟩ : MemoVal)) :: memo)
              (invokeTool svc ut cache now tc0.name a0).cache).2 with e2 | ⟨ms, c⟩
          · rw [ho] at h
            simp only [Except.map] at h
            simp at h
          · rcases List.mem_cons.mp htc with hh | ht
            · subst hh
              rw [harg] at ha
              cases ha
              left
              exact List.mem_cons_self _ _
            · rcases ih (((tc0.name, a0), (⟨tc0.name, .okP res⟩ : MemoVal)) :: memo)
                  (invokeTool svc ut cache now tc0.name a0).cache ms c (by rw [ho]) tc ht a ha
                with hl | hr
              · left
                exact List.mem_cons_of_mem _ hl
              · by_cases hkk : (tc.name, a) = (tc0.name, a0)
                · left
                  rw [hkk]
                  exact List.mem_cons_self _ _
                · right
                  simpa [alookup, hkk] using hr
        · rename_i e hres
          simp only [] at h ⊢
          rcases ho : (execCalls svc ut now rest memo
              (invokeTool svc ut cache now tc0.name a0).cache).2 with e2 | ⟨ms, c⟩
          · rw [ho] at h
            simp only [Except.map] at h
            simp at h
          · rcases List.mem_cons.mp htc with hh | ht
            · subst hh
              rw [harg] at ha
              cases ha
              left
              exact List.mem_cons_self _ _
            · rcases ih memo (invokeTool svc ut cache now tc0.name a0).cache ms c
                  (by rw [ho]) tc ht a ha with hl | hr
              · left
                exact List.mem_cons_of_mem _ hl
              · right
                exact hr

/-- Claim C3 (amended): within one round, the memo deduplicates successful
executions.  When no execution in the batch fails, the executor runs exactly
once per unique `(name, arguments)` pair (the trace covers every well-formed
pair and has no duplicates), each call receives exactly one result message
tagged with its own id in batch order, and calls with identical name and
arguments receive identical content.  A throwing execution is not memoized,
so duplicates of a failing call re-invoke the executor (see the
counterexample). -/
theorem round_memo_dedupes (svc : HttpReq → SvcAnswer) (ut : Option String) (now : Nat)
    (calls : List ToolCallRec) (cache : CacheMap) (msgs : List Message) (cache2 : CacheMap)
    (h : (execCalls svc ut now calls [] cache).2 = .ok (msgs, cache2))
    (hok : ∀ m ∈ msgs, contentIsErr m.content = false) :
    (execCalls svc ut now calls [] cache).1.Nodup
    ∧ (∀ tc ∈ calls, ∀ a, tc.arguments = .parsed a →
        (tc.name, a) ∈ (execCalls svc ut now calls [] cache).1)
    ∧ msgs.map (fun m => m.tool_call_id) = calls.map (fun tc => some tc.id)
    ∧ ∀ (i j : Nat) (ci cj : ToolCallRec) (aD : ParsedArgs),
        calls[i]? = some ci → calls[j]? = some cj →
        ci.name = cj.name → ci.arguments = .parsed aD → cj.arguments = .parsed aD →
        msgs[i]?.map (fun m => m.content) = msgs[j]?.map (fun m => m.content) := by
  refine ⟨(execCalls_trace_fresh svc ut now calls [] cache msgs cache2 h hok).1, ?_,
    execCalls_ids svc ut now calls [] cache msgs cache2 h, ?_⟩
  · intro tc htc a ha
    rcases execCalls_covers svc ut now calls [] cache msgs cache2 h tc htc a ha with hl | hr
    · exact hl
    · simp [alookup] at hr
  · intro i j ci cj aD hi hj hname hargi hargj
    obtain ⟨f, -, hf⟩ := execCalls_content svc ut now calls [] cache msgs cache2 h hok
    rw [hf i ci hi aD hargi, hf j cj hj aD hargj, hname]

/-- Empty-object arguments: valid JSON, invalid shape for every executor. -/
def aEmptyW : ParsedArgs := {}

/-- Counterexample to C3 as stated: a batch of two identical calls whose
executor throws invokes the executor twice for its single unique pair — the
per-round memo only stores successful results. -/
theorem dedupe_counterexample :
    (execCalls svcW (some "u") 0
        [⟨"d1", "create_content", .parsed aEmptyW⟩, ⟨"d2", "create_content", .parsed aEmptyW⟩]
        [] []).1 = [("create_content", aEmptyW), ("create_content", aEmptyW)]
    ∧ ¬ (execCalls svcW (some "u") 0
        [⟨"d1", "create_content", .parsed aEmptyW⟩, ⟨"d2", "create_content", .parsed aEmptyW⟩]
        [] []).1.Nodup := by
  exact ⟨rfl, by decide⟩

/-- The duplicated successful batch used by the C3 witness. -/
def dedupeCallsW : List ToolCallRec :=
  [tcPreview, ⟨"prev2", "create_content", tcPreview.arguments⟩]

/-- The tool-result messages of the duplicated batch. -/
def dedupeMsgsW : List Message :=
  ((execCalls svcW (some "u") 0 dedupeCallsW [] []).2.toOption.getD ([], [])).1

/-- The cache state after the duplicated batch. -/
def dedupeCacheW : CacheMap :=
  ((execCalls svcW (some "u") 0 dedupeCallsW [] []).2.toOption.getD ([], [])).2

/-- Witness for the amended C3: two identical successful `create_content`
calls produce one traced invocation and identical contents. -/
theorem round_memo_dedupes_witness :
    (execCalls svcW (some "u") 0 dedupeCallsW [] []).1.Nodup
    ∧ dedupeMsgsW[0]?.map (fun m => m.content) = dedupeMsgsW[1]?.map (fun m => m.content) :=
  ⟨(round_memo_dedupes svcW (some "u") 0 dedupeCallsW [] dedupeMsgsW dedupeCacheW rfl
      (by decide)).1,
   (round_memo_dedupes svcW (some "u") 0 dedupeCallsW [] dedupeMsgsW dedupeCacheW rfl
      (by decide)).2.2.2 0 1 tcPreview ⟨"prev2", "create_content", tcPreview.arguments⟩
      { title := some "T", description := some "D", content_type := some "subject" }
      rfl rfl rfl rfl rfl⟩

/-! ### C8: ordering of tool results and the context shape -/

/-- Helper: the loop only appends round logs whose sent context is the
request context followed by the assistant tool-call message followed by that
round's results, with results tagged in the order of the tool calls. -/
theorem toolLoop_logs_inv (env : Env) (ut : Option String) (ctx : List Message) :
    ∀ (fuel : Nat) (st out : LoopSt),
      toolLoop env ut ctx fuel st = .ok out →
      (∀ log ∈ st.logs,
        log.sentCtx = ctx ++ log.aMsg :: log.results
        ∧ log.results.map (fun m => m.tool_call_id)
            = log.aMsg.tool_calls.map (fun tc => some tc.id)) →
      ∀ log ∈ out.logs,
        log.sentCtx = ctx ++ log.aMsg :: log.results
        ∧ log.results.map (fun m => m.tool_call_id)
            = log.aMsg.tool_calls.map (fun tc => some tc.id) := by
  intro fuel
  induction fuel with
  | zero =>
    intro st out h hinv
    rw [toolLoop] at h
    cases h
    exact hinv
  | succ n ih =>
    intro st out h hinv
    rw [toolLoop] at h
    by_cases hnc : st.aMsg.tool_calls = []
    · rw [if_pos hnc] at h
      cases h
      exact hinv
    · rw [if_neg hnc] at h
      simp only [] at h
      rcases he : (execCalls env.svc ut env.nowMs st.aMsg.tool_calls [] st.cache).2
        with e | ⟨results, cache2⟩
      · rw [he] at h
        simp at h
      · rw [he] at h
        have hids := execCalls_ids env.svc ut env.nowMs st.aMsg.tool_calls [] st.cache
          results cache2 he
        have hinv2 : ∀ log ∈ st.logs ++ [(⟨st.aMsg, results, ctx ++ st.aMsg :: results⟩ : RoundLog)],
            log.sentCtx = ctx ++ log.aMsg :: log.results
            ∧ log.results.map (fun m => m.tool_call_id)
                = log.aMsg.tool_calls.map (fun tc => some tc.id) := by
          intro log hlog
          rcases List.mem_append.mp hlog with hA | hB
          · exact hinv log hA
          · have hlB : log = (⟨st.aMsg, results, ctx ++ st.aMsg :: results⟩ : RoundLog) := by
              simpa using hB
            subst hlB
            exact ⟨rfl, hids⟩
        rcases hc : env.completions st.idx with s | - | ⟨m2, u2⟩
        · rw [hc] at h
          simp at h
        · rw [hc] at h
          simp at h
        · rw [hc] at h
          simp only [] at h
          by_cases hforce : contentEmpty m2.content = true ∧ m2.tool_calls = []
          · rw [if_pos hforce] at h
            rcases hc2 : env.completions (st.idx + 1) with s2 | - | ⟨m3, u3⟩
            · rw [hc2] at h
              simp at h
            · rw [hc2] at h
              simp at h
            · rw [hc2] at h
              cases h
              intro log hlog
              exact hinv2 log hlog
          · rw [if_neg hforce] at h
            exact ih _ _ h hinv2

/-- Claim C8: in every completed round of a turn, the tool-result messages
are tagged with their originating call ids in exactly the order of the
assistant's `tool_calls` array, and the context sent to the next backend
call is exactly the turn's request context, then the assistant tool-call
message, then all of that round's tool results. -/
theorem round_order_and_context (env : Env) (ut : Option String) (ctx : List Message)
    (fuel : Nat) (st out : LoopSt) (hlogs : st.logs = [])
    (h : toolLoop env ut ctx fuel st = .ok out) :
    ∀ log ∈ out.logs,
      log.sentCtx = ctx ++ log.aMsg :: log.results
      ∧ log.results.map (fun m => m.tool_call_id)
          = log.aMsg.tool_calls.map (fun tc => some tc.id) := by
  apply toolLoop_logs_inv env ut ctx fuel st out h
  rw [hlogs]
  intro log hlog
  simp at hlog

/-- The one-round loop run used by the C8 witness. -/
def loopRunW8 : LoopSt := (toolLoop envPlain (some "u") [mU1] 5 stInit).toOption.getD stInit

/-- Its single round log. -/
def logW8 : RoundLog := loopRunW8.logs.head?.getD ⟨mHi, [], []⟩

/-- Witness for C8: the one recorded round of a concrete turn has its results
in tool-call order and the context shaped as claimed. -/
theorem round_order_and_context_witness :
    logW8.sentCtx = [mU1] ++ logW8.aMsg :: logW8.results
    ∧ logW8.results.map (fun m => m.tool_call_id)
        = logW8.aMsg.tool_calls.map (fun tc => some tc.id) :=
  round_order_and_context envPlain (some "u") [mU1] 5 stInit loopRunW8 rfl rfl
    logW8 (by decide)

/-! ### C7, stage A: generic facts about the replacement scanner -/

/-- A matcher makes progress: the remainder after a match is strictly
shorter than its input. -/
def MProg (m : List Char → Option (List Char × List Char)) : Prop :=
  ∀ s rep rem, m s = some (rep, rem) → rem.length < s.length

/-- A scanner whose matcher fails at every suffix is the identity. -/
theorem runRep_no_match (m : List Char → Option (List Char × List Char)) :
    ∀ (fuel : Nat) (s : List Char), s.length ≤ fuel →
      (∀ t, t ≠ [] → t <:+ s → m t = none) → runRep m fuel s = s := by
  intro fuel
  induction fuel with
  | zero =>
    intro s hs _
    rfl
  | succ n ih =>
    intro s hs hn
    cases s with
    | nil => rfl
    | cons c r =>
      rw [runRep, hn (c :: r) (by simp) (List.suffix_refl _)]
      have hr : runRep m n r = r := by
        refine ih r ?_ ?_
        · simp at hs
          omega
        · intro t ht hsuf
          exact hn t ht (hsuf.trans (List.suffix_cons c r))
      rw [hr]

/-- With enough fuel, the scanner's output does not depend on the fuel. -/
theorem runRep_fuel (m : List Char → Option (List Char × List Char)) (hp : MProg m) :
    ∀ (fuel : Nat) (s : List Char), s.length ≤ fuel →
      runRep m fuel s = runRep m s.length s := by
  intro fuel
  induction fuel using Nat.strong_induction_on with
  | _ fuel ih =>
    intro s hs
    match fuel, s with
    | 0, s =>
      have : s = [] := List.eq_nil_of_length_eq_zero (Nat.le_zero.mp hs)
      subst this
      rfl
    | n + 1, [] => rfl
    | n + 1, c :: r =>
      rw [runRep]
      rw [show (c :: r).length = r.length + 1 from rfl, runRep]
      cases hm : m (c :: r) with
      | none =>
        have h1 : runRep m n r = runRep m r.length r := by
          refine ih n (Nat.lt_succ_self n) r ?_
          simp at hs
          omega
        show c :: runRep m n r = c :: runRep m r.length r
        rw [h1]
      | some p =>
        obtain ⟨rep, rem⟩ := p
        have hlt := hp _ _ _ hm
        have h1 : runRep m n rem = runRep m rem.length rem := by
          refine ih n (Nat.lt_succ_self n) rem ?_
          simp at hs hlt
          omega
        have h2 : runRep m r.length rem = runRep m rem.length rem := by
          refine ih r.length ?_ rem ?_ <;> simp at hs hlt ⊢ <;> omega
        show rep ++ runRep m n rem = rep ++ runRep m r.length rem
        rw [h1, h2]

/-- Scanner step on a position where the matcher fails. -/
theorem applyRep_cons_none (m : List Char → Option (List Char × List Char))
    (c : Char) (r : List Char) (hm : m (c :: r) = none) :
    applyRep m (c :: r) = c :: applyRep m r := by
  unfold applyRep
  rw [show (c :: r).length = r.length + 1 from rfl, runRep, hm]

/-- Scanner step on a position where the matcher succeeds. -/
theorem applyRep_match (m : List Char → Option (List Char × List Char)) (hp : MProg m)
    (s rep rem : List Char) (hm : m s = some (rep, rem)) :
    applyRep m s = rep ++ applyRep m rem := by
  cases s with
  | nil =>
    have := hp _ _ _ hm
    simp at this
  | cons c r =>
    unfold applyRep
    rw [show (c :: r).length = r.length + 1 from rfl, runRep, hm]
    have hlt := hp _ _ _ hm
    have h2 : runRep m r.length rem = runRep m rem.length rem := by
      refine runRep_fuel m hp r.length rem ?_
      simp at hlt
      omega
    show rep ++ runRep m r.length rem = rep ++ runRep m rem.length rem
    rw [h2]

/-- The scanner is the identity when the matcher fails at every suffix. -/
theorem applyRep_no_match (m : List Char → Option (List Char × List Char))
    (s : List Char) (h : ∀ t, t ≠ [] → t <:+ s → m t = none) :
    applyRep m s = s :=
  runRep_no_match m s.length s le_rfl h

/-- Decompose a suffix of an append. -/
theorem suffix_append_cases {t A B : List Char} (h : t <:+ A ++ B) :
    t <:+ B ∨ ∃ t0, t0 ≠ [] ∧ t0 <:+ A ∧ t = t0 ++ B := by
  induction A with
  | nil =>
    left
    simpa using h
  | cons c A2 ih =>
    obtain ⟨u, hu⟩ := h
    cases u with
    | nil =>
      right
      refine ⟨c :: A2, by simp, List.suffix_refl _, ?_⟩
      simpa using hu
    | cons d u2 =>
      have h2 : t <:+ A2 ++ B := by
        refine ⟨u2, ?_⟩
        have := hu
        simp only [List.cons_append] at this
        exact (List.cons.injEq _ _ _ _).mp this |>.2
      rcases ih h2 with hB | ⟨t0, ht0, hsuf, heq⟩
      · left
        exact hB
      · right
        exact ⟨t0, ht0, hsuf.trans (List.suffix_cons c A2), heq⟩

/-- The scanner passes over a prefix where no suffix can start a match. -/
theorem applyRep_append_pre (m : List Char → Option (List Char × List Char)) :
    ∀ (A B : List Char), (∀ t, t ≠ [] → t <:+ A → m (t ++ B) = none) →
      applyRep m (A ++ B) = A ++ applyRep m B := by
  intro A
  induction A with
  | nil =>
    intro B _
    simp
  | cons c A2 ih =>
    intro B hnone
    have h1 : m (c :: (A2 ++ B)) = none := by
      have := hnone (c :: A2) (by simp) (List.suffix_refl _)
      simpa using this
    rw [List.cons_append, applyRep_cons_none m c (A2 ++ B) h1,
      ih B (fun t ht hsuf => hnone t ht (hsuf.trans (List.suffix_cons c A2)))]
    simp

/-! ### C7, stage B: facts about the helpers and the individual matchers -/

/-- `intercalate` on the empty list. -/
theorem intercalate_nil2 (s : List Char) : List.intercalate s ([] : List (List Char)) = [] := by
  simp [List.intercalate]

/-- `intercalate` on a singleton. -/
theorem intercalate_one (s a : List Char) : List.intercalate s [a] = a := by
  simp [List.intercalate]

/-- `intercalate` on two or more pieces. -/
theorem intercalate_cons2 (s a b : List Char) (ls : List (List Char)) :
    List.intercalate s (a :: b :: ls) = a ++ s ++ List.intercalate s (b :: ls) := by
  simp [List.intercalate, List.intersperse]

/-- `escAmp` leaves a character other than the ampersand in place. -/
theorem escAmp_cons_ne (c : Char) (r : List Char) (hc : c ≠ '&') :
    escAmp (c :: r) = c :: escAmp r := by
  rw [escAmp.eq_def]
  split
  · rename_i heq
    simp at heq
  · rename_i r2 heq
    injection heq with h1 h2
    exact absurd h1 hc
  · rename_i c2 r2 heq
    injection heq with h1 h2
    subst h1
    subst h2
    rfl

/-- `escAmp` is the identity on ampersand-free text. -/
theorem escAmp_id (s : List Char) (h : ∀ c ∈ s, c ≠ '&') : escAmp s = s := by
  induction s with
  | nil => rfl
  | cons c r ih =>
    rw [escAmp_cons_ne c r (h c (by simp))]
    rw [ih (fun d hd => h d (by simp [hd]))]

/-- `escLt` leaves a character other than the less-than sign in place. -/
theorem escLt_cons_ne (c : Char) (r : List Char) (hc : c ≠ '<') :
    escLt (c :: r) = c :: escLt r := by
  rw [escLt.eq_def]
  split
  · rename_i heq
    simp at heq
  · rename_i r2 heq
    injection heq with h1 h2
    exact absurd h1 hc
  · rename_i c2 r2 heq
    injection heq with h1 h2
    subst h1
    subst h2
    rfl

/-- `escLt` is the identity on text free of the less-than sign. -/
theorem escLt_id (s : List Char) (h : ∀ c ∈ s, c ≠ '<') : escLt s = s := by
  induction s with
  | nil => rfl
  | cons c r ih =>
    rw [escLt_cons_ne c r (h c (by simp))]
    rw [ih (fun d hd => h d (by simp [hd]))]

/-- `escGt` leaves a character other than the greater-than sign in place. -/
theorem escGt_cons_ne (c : Char) (r : List Char) (hc : c ≠ '>') :
    escGt (c :: r) = c :: escGt r := by
  rw [escGt.eq_def]
  split
  · rename_i heq
    simp at heq
  · rename_i r2 heq
    injection heq with h1 h2
    exact absurd h1 hc
  · rename_i c2 r2 heq
    injection heq with h1 h2
    subst h1
    subst h2
    rfl

/-- `escGt` is the identity on text free of the greater-than sign. -/
theorem escGt_id (s : List Char) (h : ∀ c ∈ s, c ≠ '>') : escGt s = s := by
  induction s with
  | nil => rfl
  | cons c r ih =>
    rw [escGt_cons_ne c r (h c (by simp))]
    rw [ih (fun d hd => h d (by simp [hd]))]

/-- `escHtml` is the identity when none of the escaped characters occur. -/
theorem escHtml_id (s : List Char)
    (h : ∀ c ∈ s, c ≠ '&' ∧ c ≠ '<' ∧ c ≠ '>') : escHtml s = s := by
  unfold escHtml
  rw [escAmp_id s (fun c hc => (h c hc).1)]
  rw [escLt_id s (fun c hc => (h c hc).2.1)]
  rw [escGt_id s (fun c hc => (h c hc).2.2)]

/-- The bold matcher fails when the first character is not a star. -/
theorem mBold_none_head (c : Char) (t : List Char) (hc : c ≠ '*') :
    mBold (c :: t) = none := by
  rw [mBold.eq_def]
  split
  · rename_i r heq
    injection heq with h1 h2
    exact absurd h1 hc
  · rfl

/-- The italics matcher fails when the first character is not a star. -/
theorem mEm_none_head (c : Char) (t : List Char) (hc : c ≠ '*') :
    mEm (c :: t) = none := by
  rw [mEm.eq_def]
  split
  · rename_i r heq
    injection heq with h1 h2
    exact absurd h1 hc
  · rfl

/-- A successful link match starts with an auto-link trigger. -/
theorem mLink_some_scheme (t : List Char) (p : List Char × List Char)
    (h : mLink t = some p) : hasSchemeAt t = true := by
  rw [mLink.eq_def] at h
  split at h
  · rename_i rest heq
    split at h
    · rename_i r heq2
      have hd : "https://".data = ['h', 't', 't', 'p', 's', ':', '/', '/'] := rfl
      simp only [hasSchemeAt, hd, Bool.or_eq_true]
      right
      simp [List.isPrefixOf]
    · rename_i r heq2
      have hd : "http://".data = ['h', 't', 't', 'p', ':', '/', '/'] := rfl
      simp only [hasSchemeAt, hd, Bool.or_eq_true]
      left
      simp [List.isPrefixOf]
    · exact absurd h (by simp)
  · exact absurd h (by simp)

/-- A scheme found at a suffix is found by the whole-string scan. -/
theorem hasScheme_of_suffix (w s : List Char) (hsuf : w <:+ s)
    (hw : hasSchemeAt w = true) : hasScheme s = true := by
  induction s with
  | nil =>
    have hw0 : w = [] := List.suffix_nil.mp hsuf
    subst hw0
    simp [hasSchemeAt, List.isPrefixOf] at hw
  | cons c r ih =>
    rcases List.suffix_cons_iff.mp hsuf with h1 | h2
    · subst h1
      simp [hasScheme, hw]
    · simp [hasScheme, ih h2]

/-- A scheme prefix survives extension on the right. -/
theorem hasSchemeAt_append (w v : List Char) (hw : hasSchemeAt w = true) :
    hasSchemeAt (w ++ v) = true := by
  simp only [hasSchemeAt, Bool.or_eq_true] at hw ⊢
  rcases hw with h | h
  · left
    exact List.isPrefixOf_iff_prefix.mpr ((List.isPrefixOf_iff_prefix.mp h).trans (List.prefix_append w v))
  · right
    exact List.isPrefixOf_iff_prefix.mpr ((List.isPrefixOf_iff_prefix.mp h).trans (List.prefix_append w v))

/-- A scheme found at an infix is found by the whole-string scan. -/
theorem hasScheme_of_inside (t s : List Char) (hinf : t <:+: s)
    (ht : hasSchemeAt t = true) : hasScheme s = true := by
  obtain ⟨u, v, huv⟩ := hinf
  subst huv
  rw [List.append_assoc]
  refine hasScheme_of_suffix (t ++ v) (u ++ (t ++ v)) ⟨u, rfl⟩ ?_
  exact hasSchemeAt_append t v ht

/-- Scheme-freedom restricts to infixes. -/
theorem hasScheme_mono (t s : List Char) (hinf : t <:+: s)
    (hs : hasScheme s = false) : hasScheme t = false := by
  by_contra hcon
  have ht : hasScheme t = true := by
    cases h2 : hasScheme t
    · exact absurd h2 hcon
    · rfl
  -- a scheme inside t sits inside s
  clear hcon
  induction t with
  | nil => simp [hasScheme] at ht
  | cons c r ih =>
    simp only [hasScheme, Bool.or_eq_true] at ht
    rcases ht with h | h
    · rw [hasScheme_of_inside (c :: r) s hinf h] at hs
      cases hs
    · exact ih (((List.suffix_cons c r).isInfix).trans hinf) h

/-- The scan agrees with the existence of a scheme-bearing suffix. -/
theorem hasSchemeAt_of_suffix_false (s t : List Char) (hs : hasScheme s = false)
    (hsuf : t <:+ s) : hasSchemeAt t = false := by
  cases h2 : hasSchemeAt t
  · rfl
  · rw [hasScheme_of_suffix t s hsuf h2] at hs
    cases hs

/-- `fmtInline` is the identity on text with no star and no auto-link
trigger. -/
theorem fmtInline_id (l : List Char) (hstar : ∀ c ∈ l, c ≠ '*')
    (hsch : hasScheme l = false) : fmtInline l = l := by
  unfold fmtInline
  have hb : applyRep mBold l = l := by
    refine applyRep_no_match mBold l ?_
    intro t ht hsuf
    cases t with
    | nil => exact absurd rfl ht
    | cons c r => exact mBold_none_head c r (hstar c (hsuf.subset (by simp)))
  rw [hb]
  have he : applyRep mEm l = l := by
    refine applyRep_no_match mEm l ?_
    intro t ht hsuf
    cases t with
    | nil => exact absurd rfl ht
    | cons c r => exact mEm_none_head c r (hstar c (hsuf.subset (by simp)))
  rw [he]
  refine applyRep_no_match mLink l ?_
  intro t ht hsuf
  cases hm : mLink t with
  | none => rfl
  | some p =>
    have hsome := mLink_some_scheme t p hm
    rw [hasSchemeAt_of_suffix_false l t hsch hsuf] at hsome
    cases hsome

/-- The heading matchers fail when the line avoids the pattern head. -/
theorem headCapture_none (pfx line : List Char) (c0 : Char) (hpfx : pfx.head? = some c0)
    (h : ∀ c ∈ line, c ≠ c0) : headCapture pfx line = none := by
  have hfalse : pfx.isPrefixOf line = false := by
    cases hb : pfx.isPrefixOf line
    · rfl
    · exfalso
      have hp : pfx <+: line := List.isPrefixOf_iff_prefix.mp hb
      cases pfx with
      | nil => simp at hpfx
      | cons p ps =>
        simp only [List.head?_cons, Option.some.injEq] at hpfx
        subst hpfx
        exact h p (hp.subset (by simp)) rfl
  simp [headCapture, hfalse]

/-- The list-item matcher fails when the line avoids dashes and stars. -/
theorem liCapture_none (line : List Char)
    (h : ∀ c ∈ line, c ≠ '-' ∧ c ≠ '*') : liCapture line = none := by
  rw [liCapture.eq_def]
  split
  · exact absurd rfl (h '-' (by simp)).1
  · exact absurd rfl (h '*' (by simp)).2
  · rfl

/-- `dropWhile` is idempotent. -/
theorem dropWhile_ws_idem (l : List Char) :
    (l.dropWhile jsWs).dropWhile jsWs = l.dropWhile jsWs := by
  cases hd : l.dropWhile jsWs with
  | nil => rfl
  | cons c r =>
    have hc : jsWs ((l.dropWhile jsWs).head (by simp [hd])) = false :=
      List.head_dropWhile_not jsWs l (by simp [hd])
    simp only [hd, List.head_cons] at hc
    simp [List.dropWhile_cons, hc]

/-- `trimEnd` is idempotent. -/
theorem trimEnd_idem (s : List Char) : trimEndL (trimEndL s) = trimEndL s := by
  unfold trimEndL
  rw [List.reverse_reverse, dropWhile_ws_idem]

/-- `trimEnd` produces the empty list exactly on all-whitespace input. -/
theorem trimEnd_nil_iff (s : List Char) : trimEndL s = [] ↔ ∀ c ∈ s, jsWs c := by
  unfold trimEndL
  rw [List.reverse_eq_nil_iff, List.dropWhile_eq_nil_iff]
  constructor
  · intro h c hc
    exact h c (by simpa using hc)
  · intro h c hc
    exact h c (by simpa using hc)

/-- A trimmed line that the blank test accepts is empty. -/
theorem blank_trimmed (raw : List Char) (h : jsTrimL (trimEndL raw) = []) :
    trimEndL raw = [] := by
  unfold jsTrimL trimStartL at h
  have hall : ∀ c ∈ (trimEndL raw).dropWhile jsWs, jsWs c = true := (trimEnd_nil_iff _).mp h
  cases hd : (trimEndL raw).dropWhile jsWs with
  | nil =>
    have hallu : ∀ c ∈ trimEndL raw, jsWs c := List.dropWhile_eq_nil_iff.mp hd
    have h2 := (trimEnd_nil_iff (trimEndL raw)).mpr hallu
    rw [trimEnd_idem] at h2
    exact h2
  | cons c r =>
    exfalso
    have hc : jsWs (((trimEndL raw).dropWhile jsWs).head (by simp [hd])) = false :=
      List.head_dropWhile_not jsWs (trimEndL raw) (by simp [hd])
    simp only [hd, List.head_cons] at hc
    have hcw := hall c (by simp [hd])
    rw [hcw] at hc
    cases hc

/-- Split a string into its trimmed part and a whitespace tail. -/
theorem trimEnd_decomp (s : List Char) :
    s = trimEndL s ++ (s.reverse.takeWhile jsWs).reverse
    ∧ ∀ c ∈ (s.reverse.takeWhile jsWs).reverse, jsWs c := by
  constructor
  · unfold trimEndL
    conv_lhs => rw [← s.reverse_reverse]
    rw [← List.reverse_append, List.takeWhile_append_dropWhile]
  · intro c hc
    rw [List.mem_reverse] at hc
    exact List.mem_takeWhile_imp hc

/-- The trimmed line is a prefix of the raw line. -/
theorem trimEnd_front (s : List Char) : trimEndL s <+: s :=
  ⟨(s.reverse.takeWhile jsWs).reverse, ((trimEnd_decomp s).1).symm⟩

/-- `"\n".data` as an explicit list. -/
theorem nlData : "\n".data = ['\n'] := rfl

/-- `splitNl` never returns an empty list of pieces. -/
theorem splitNl_ne_nil (s : List Char) : splitNl s ≠ [] := by
  rw [splitNl.eq_def]
  split
  · simp
  · simp
  · rename_i c rest hc
    cases hsr : splitNl rest <;> simp

/-- `splitNl` step on a newline. -/
theorem splitNl_nl (rest : List Char) : splitNl ('\n' :: rest) = [] :: splitNl rest := rfl

/-- `splitNl` step on an ordinary character. -/
theorem splitNl_cons_ne (c : Char) (rest : List Char) (hc : c ≠ '\n') :
    splitNl (c :: rest) = (c :: (splitNl rest).headI) :: (splitNl rest).tail := by
  rw [splitNl.eq_def]
  split
  · rename_i heq
    simp at heq
  · rename_i r2 heq
    injection heq with h1 h2
    exact absurd h1 hc
  · rename_i x c2 r2 hne heq
    injection heq with h1 h2
    subst h1
    subst h2
    cases hsr : splitNl rest with
    | nil => exact absurd hsr (splitNl_ne_nil rest)
    | cons l ls => simp

/-- Joining the split with newlines restores the string. -/
theorem splitNl_join (s : List Char) : List.intercalate ['\n'] (splitNl s) = s := by
  induction s with
  | nil => simp [splitNl, intercalate_one]
  | cons c r ih =>
    by_cases hc : c = '\n'
    · subst hc
      rw [splitNl_nl]
      cases hsr : splitNl r with
      | nil => exact absurd hsr (splitNl_ne_nil r)
      | cons l ls =>
        rw [intercalate_cons2]
        rw [hsr] at ih
        simp [ih]
    · rw [splitNl_cons_ne c r hc]
      cases hsr : splitNl r with
      | nil => exact absurd hsr (splitNl_ne_nil r)
      | cons l ls =>
        rw [hsr] at ih
        cases ls with
        | nil =>
          simp only [List.headI, List.tail_cons]
          rw [intercalate_one] at ih ⊢
          rw [ih]
        | cons l2 ls2 =>
          simp only [List.headI, List.tail_cons]
          rw [intercalate_cons2] at ih
          rw [intercalate_cons2, ← ih]
          simp

/-- No piece of `splitNl` contains a newline. -/
theorem splitNl_nonl (s : List Char) : ∀ p ∈ splitNl s, ∀ c ∈ p, c ≠ '\n' := by
  induction s with
  | nil =>
    intro p hp
    simp [splitNl] at hp
    subst hp
    simp
  | cons c r ih =>
    by_cases hc : c = '\n'
    · subst hc
      rw [splitNl_nl]
      intro p hp
      rcases List.mem_cons.mp hp with h1 | h2
      · subst h1
        simp
      · exact ih p h2
    · rw [splitNl_cons_ne c r hc]
      intro p hp
      rcases List.mem_cons.mp hp with h1 | h2
      · subst h1
        intro d hd
        rcases List.mem_cons.mp hd with h3 | h4
        · subst h3
          exact hc
        · refine ih (splitNl r).headI ?_ d h4
          cases hsr : splitNl r with
          | nil => exact absurd hsr (splitNl_ne_nil r)
          | cons l ls => simp
      · exact ih p (List.mem_of_mem_tail h2)

/-- The first piece of `splitNl` is a prefix of the string. -/
theorem splitNl_head_prefix (s : List Char) : (splitNl s).headI <+: s := by
  induction s with
  | nil => simp [splitNl]
  | cons c r ih =>
    by_cases hc : c = '\n'
    · subst hc
      rw [splitNl_nl]
      simp
    · rw [splitNl_cons_ne c r hc]
      show c :: (splitNl r).headI <+: c :: r
      obtain ⟨w, hw⟩ := ih
      exact ⟨w, by rw [List.cons_append, hw]⟩

/-- Every piece of `splitNl` is an infix of the string. -/
theorem splitNl_inside (s : List Char) : ∀ p ∈ splitNl s, p <:+: s := by
  induction s with
  | nil =>
    intro p hp
    simp [splitNl] at hp
    subst hp
    exact List.infix_refl []
  | cons c r ih =>
    by_cases hc : c = '\n'
    · subst hc
      rw [splitNl_nl]
      intro p hp
      rcases List.mem_cons.mp hp with h1 | h2
      · subst h1
        simp
      · exact (ih p h2).trans (List.suffix_cons '\n' r).isInfix
    · rw [splitNl_cons_ne c r hc]
      intro p hp
      rcases List.mem_cons.mp hp with h1 | h2
      · subst h1
        refine List.IsPrefix.isInfix ?_
        obtain ⟨w, hw⟩ := splitNl_head_prefix r
        exact ⟨w, by rw [List.cons_append, hw]⟩
      · have hmem : p ∈ splitNl r := List.mem_of_mem_tail h2
        exact (ih p hmem).trans (List.suffix_cons c r).isInfix

/-- `replaceCRLF` is the identity on text without carriage returns. -/
theorem replaceCRLF_id (s : List Char) : (∀ c ∈ s, c ≠ '\r') → replaceCRLF s = s := by
  induction s with
  | nil => intro h; rfl
  | cons c r ih =>
    intro h
    rw [replaceCRLF.eq_def]
    split
    · rename_i heq
      simp at heq
    · rename_i rest heq
      injection heq with h1 h2
      exact absurd h1 (h c (List.mem_cons_self c r))
    · rename_i x c2 r2 hne heq
      injection heq with h1 h2
      subst h1
      subst h2
      rw [ih (fun d hd => h d (List.mem_cons_of_mem c hd))]

/-! ### C7, stage C: `toRichHtml` on markup-free input -/

/-- The `<p>` wrapper produced for an ordinary line. -/
def wrapP (l : List Char) : List Char := "<p>".data ++ l ++ "</p>".data

/-- The non-blank trimmed lines of a split input. -/
def cleanLines (ls : List (List Char)) : List (List Char) :=
  (ls.map trimEndL).filter (fun l => decide (jsTrimL l ≠ []))

/-- `cleanLines` on the empty list. -/
theorem cleanLines_nil : cleanLines [] = [] := rfl

/-- `cleanLines` step. -/
theorem cleanLines_cons (raw : List Char) (ls : List (List Char)) :
    cleanLines (raw :: ls) =
      if jsTrimL (trimEndL raw) = [] then cleanLines ls
      else trimEndL raw :: cleanLines ls := by
  by_cases hb : jsTrimL (trimEndL raw) = []
  · simp [cleanLines, List.filter_cons, hb]
  · simp [cleanLines, List.filter_cons, hb]

/-- `flushList` of an empty buffer. -/
theorem flushList_nil : flushList [] = [] := rfl

/-- A line whose characters all fail `markupChar` avoids any markup character. -/
theorem markup_absent (l : List Char) (hm : ∀ c ∈ l, markupChar c = false)
    (c0 : Char) (hc0 : markupChar c0 = true) : ∀ c ∈ l, c ≠ c0 := by
  intro c hc hcon
  subst hcon
  rw [hm c hc] at hc0
  simp at hc0

/-- On markup-free lines the line loop of `toRichHtml` wraps every non-blank
trimmed line in a paragraph and drops the blanks. -/
theorem richParts_plain (ls : List (List Char))
    (hm : ∀ l ∈ ls, ∀ c ∈ l, markupChar c = false)
    (hs : ∀ l ∈ ls, hasScheme l = false) :
    richParts ls [] = (cleanLines ls).map wrapP := by
  induction ls with
  | nil => rfl
  | cons raw rest ih =>
    have hmr : ∀ c ∈ trimEndL raw, markupChar c = false :=
      fun c hc => hm raw (List.mem_cons_self raw rest) c ((trimEnd_front raw).subset hc)
    have hsr : hasScheme (trimEndL raw) = false :=
      hasScheme_mono _ raw (trimEnd_front raw).isInfix (hs raw (List.mem_cons_self raw rest))
    have ihr : richParts rest [] = (cleanLines rest).map wrapP :=
      ih (fun l hl => hm l (List.mem_cons_of_mem raw hl))
         (fun l hl => hs l (List.mem_cons_of_mem raw hl))
    have h3 : headCapture "###".data (trimEndL raw) = none :=
      headCapture_none _ _ '#' rfl (markup_absent _ hmr '#' (by decide))
    have h2 : headCapture "##".data (trimEndL raw) = none :=
      headCapture_none _ _ '#' rfl (markup_absent _ hmr '#' (by decide))
    have h1 : headCapture "#".data (trimEndL raw) = none :=
      headCapture_none _ _ '#' rfl (markup_absent _ hmr '#' (by decide))
    have hli : liCapture (trimEndL raw) = none :=
      liCapture_none _ (fun c hc => ⟨markup_absent _ hmr '-' (by decide) c hc,
                                     markup_absent _ hmr '*' (by decide) c hc⟩)
    have hesc : escHtml (trimEndL raw) = trimEndL raw :=
      escHtml_id _ (fun c hc => ⟨markup_absent _ hmr '&' (by decide) c hc,
        markup_absent _ hmr '<' (by decide) c hc,
        markup_absent _ hmr '>' (by decide) c hc⟩)
    have hfmt : fmtInline (trimEndL raw) = trimEndL raw :=
      fmtInline_id _ (markup_absent _ hmr '*' (by decide)) hsr
    rw [cleanLines_cons]
    simp only [richParts]
    by_cases hb : jsTrimL (trimEndL raw) = []
    · rw [if_pos hb, if_pos hb, flushList_nil, List.nil_append, ihr]
    · rw [if_neg hb, if_neg hb, h3]
      simp only [h2, h1, hli, hesc, hfmt, flushList_nil, List.nil_append, List.map_cons]
      rw [ihr]
      simp [wrapP]

/-- Unpack the `markupFree` test. -/
theorem markupFree_spell (x : List Char) (hx : markupFree x = true) :
    (∀ c ∈ x, markupChar c = false) ∧ hasScheme x = false := by
  unfold markupFree at hx
  rw [Bool.and_eq_true] at hx
  obtain ⟨h1, h2⟩ := hx
  constructor
  · intro c hc
    have := List.all_eq_true.mp h1 c hc
    simpa using this
  · simpa using h2

/-- `toRichHtml` of a markup-free input is the newline join of its non-blank
trimmed lines, each wrapped in a paragraph. -/
theorem toRichHtmlL_plain (x : List Char) (hx : markupFree x = true) :
    toRichHtmlL x = List.intercalate "\n".data ((cleanLines (splitNl x)).map wrapP) := by
  obtain ⟨hall, hsch⟩ := markupFree_spell x hx
  have hcr : replaceCRLF x = x := by
    refine replaceCRLF_id x ?_
    intro c hc hcon
    subst hcon
    exact absurd (hall '\r' hc) (by decide)
  unfold toRichHtmlL
  rw [hcr]
  congr 1
  refine richParts_plain (splitNl x) ?_ ?_
  · intro l hl c hcl
    exact hall c ((splitNl_inside x l hl).subset hcl)
  · intro l hl
    exact hasScheme_mono l x (splitNl_inside x l hl) hsch

/-! ### C7, stage E: words are invariant under whitespace normalization -/

/-- `wordsOf` of the empty string. -/
theorem wordsOf_nil : wordsOf [] = [] := rfl

/-- A leading whitespace character does not change the word list. -/
theorem wordsOf_ws_cons (c : Char) (s : List Char) (hc : jsWs c = true) :
    wordsOf (c :: s) = wordsOf s := by
  simp [wordsOf, hc]

/-- One non-whitespace character is one word. -/
theorem wordsOf_single (d : Char) (hd : jsWs d = false) : wordsOf [d] = [[d]] := by
  simp [wordsOf, hd]

/-- A non-whitespace head yields a nonempty word list. -/
theorem wordsOf_ne_nil (c : Char) (s : List Char) (hc : jsWs c = false) :
    wordsOf (c :: s) ≠ [] := by
  rw [wordsOf.eq_def]
  cases s with
  | nil => simp [hc]
  | cons d s2 =>
    by_cases hd : jsWs d = true
    · simp [hc, hd]
    · rw [Bool.not_eq_true] at hd
      cases hw : wordsOf (d :: s2) with
      | nil => simp [hc, hd, hw]
      | cons w ws => simp [hc, hd, hw]

/-- A word head followed by whitespace closes the word. -/
theorem wordsOf_cons_ws2 (d c : Char) (b : List Char) (hd : jsWs d = false)
    (hc : jsWs c = true) : wordsOf (d :: c :: b) = [d] :: wordsOf (c :: b) := by
  simp [wordsOf, hd, hc]

/-- Two adjacent word characters extend the first word. -/
theorem wordsOf_cons2 (d e : Char) (s : List Char) (hd : jsWs d = false)
    (he : jsWs e = false) :
    wordsOf (d :: e :: s) = (d :: (wordsOf (e :: s)).headI) :: (wordsOf (e :: s)).tail := by
  cases hw : wordsOf (e :: s) with
  | nil => exact absurd hw (wordsOf_ne_nil e s he)
  | cons w ws =>
    rw [wordsOf.eq_def]
    simp [hd, he, hw]

/-- All-whitespace strings have no words. -/
theorem wordsOf_allws (s : List Char) (h : ∀ c ∈ s, jsWs c = true) : wordsOf s = [] := by
  induction s with
  | nil => rfl
  | cons c r ih =>
    rw [wordsOf_ws_cons c r (h c (List.mem_cons_self c r))]
    exact ih (fun d hd => h d (List.mem_cons_of_mem c hd))

/-- A whitespace separator splits the word list. -/
theorem wordsOf_append_ws (a : List Char) (c : Char) (b : List Char) (hc : jsWs c = true) :
    wordsOf (a ++ c :: b) = wordsOf a ++ wordsOf b := by
  induction a with
  | nil =>
    rw [List.nil_append, wordsOf_ws_cons c b hc, wordsOf_nil, List.nil_append]
  | cons d a2 ih =>
    by_cases hd : jsWs d = true
    · rw [List.cons_append, wordsOf_ws_cons d _ hd, wordsOf_ws_cons d a2 hd, ih]
    · rw [Bool.not_eq_true] at hd
      cases a2 with
      | nil =>
        rw [List.cons_append, List.nil_append, wordsOf_cons_ws2 d c b hd hc,
          wordsOf_single d hd, wordsOf_ws_cons c b hc]
        rfl
      | cons e a3 =>
        by_cases he : jsWs e = true
        · rw [List.cons_append, List.cons_append, wordsOf_cons_ws2 d e _ hd he,
            wordsOf_cons_ws2 d e a3 hd he]
          have ih2 : wordsOf (e :: (a3 ++ c :: b)) = wordsOf (e :: a3) ++ wordsOf b := by
            rw [← List.cons_append]
            exact ih
          rw [ih2]
          rfl
        · rw [Bool.not_eq_true] at he
          rw [List.cons_append, List.cons_append, wordsOf_cons2 d e _ hd he,
            wordsOf_cons2 d e a3 hd he]
          have ih2 : wordsOf (e :: (a3 ++ c :: b)) = wordsOf (e :: a3) ++ wordsOf b := by
            rw [← List.cons_append]
            exact ih
          rw [ih2]
          cases hw : wordsOf (e :: a3) with
          | nil => exact absurd hw (wordsOf_ne_nil e a3 he)
          | cons w ws => simp

/-- A whitespace tail does not change the word list. -/
theorem wordsOf_append_allws (a t : List Char) (ht : ∀ c ∈ t, jsWs c = true) :
    wordsOf (a ++ t) = wordsOf a := by
  cases t with
  | nil => rw [List.append_nil]
  | cons c t2 =>
    rw [wordsOf_append_ws a c t2 (ht c (List.mem_cons_self c t2))]
    rw [wordsOf_allws t2 (fun d hd => ht d (List.mem_cons_of_mem c hd))]
    rw [List.append_nil]

/-- Dropping leading whitespace keeps the words. -/
theorem wordsOf_trimStart (s : List Char) : wordsOf (trimStartL s) = wordsOf s := by
  induction s with
  | nil => rfl
  | cons c r ih =>
    by_cases hc : jsWs c = true
    · unfold trimStartL at ih ⊢
      rw [List.dropWhile_cons, if_pos (by simp [hc]), ih, wordsOf_ws_cons c r hc]
    · rw [Bool.not_eq_true] at hc
      unfold trimStartL
      rw [List.dropWhile_cons, if_neg (by simp [hc])]

/-- Trimming trailing whitespace keeps the words. -/
theorem wordsOf_trimEnd (s : List Char) : wordsOf (trimEndL s) = wordsOf s := by
  conv_rhs => rw [(trimEnd_decomp s).1]
  rw [wordsOf_append_allws (trimEndL s) _ (trimEnd_decomp s).2]

/-- Trimming at both ends keeps the words. -/
theorem wordsOf_jsTrim (s : List Char) : wordsOf (jsTrimL s) = wordsOf s := by
  unfold jsTrimL
  rw [wordsOf_trimEnd, wordsOf_trimStart]

/-- A blank line has no words. -/
theorem wordsOf_blank (l : List Char) (h : jsTrimL l = []) : wordsOf l = [] := by
  rw [← wordsOf_jsTrim l, h]
  rfl

/-- Words of a newline join are the joined per-piece words. -/
theorem wordsOf_inter_nl (ps : List (List Char)) :
    wordsOf (List.intercalate ['\n'] ps) = (ps.map wordsOf).join := by
  induction ps with
  | nil => simp [intercalate_nil2, wordsOf_nil]
  | cons a ps2 ih =>
    cases ps2 with
    | nil => simp [intercalate_one]
    | cons b ps3 =>
      rw [intercalate_cons2, List.append_assoc, List.cons_append, List.nil_append,
        wordsOf_append_ws a '\n' _ (by decide), ih]
      simp

/-- Words of a double-newline join are the joined per-piece words. -/
theorem wordsOf_inter_nl2 (ps : List (List Char)) :
    wordsOf (List.intercalate "\n\n".data ps) = (ps.map wordsOf).join := by
  induction ps with
  | nil => simp [intercalate_nil2, wordsOf_nil]
  | cons a ps2 ih =>
    cases ps2 with
    | nil => simp [intercalate_one]
    | cons b ps3 =>
      rw [intercalate_cons2, show "\n\n".data = ['\n', '\n'] from rfl, List.append_assoc,
        List.cons_append, List.cons_append, List.nil_append,
        wordsOf_append_ws a '\n' _ (by decide),
        wordsOf_ws_cons '\n' _ (by decide), ih]
      simp

/-- Dropping the blank pieces does not change the joined words. -/
theorem join_filter_blank (ps : List (List Char)) :
    ((ps.filter (fun l => decide (jsTrimL l ≠ []))).map wordsOf).join =
      (ps.map wordsOf).join := by
  induction ps with
  | nil => rfl
  | cons a ps2 ih =>
    rw [List.filter_cons]
    by_cases hb : jsTrimL a = []
    · rw [if_neg (by simp [hb])]
      rw [ih, List.map_cons]
      simp [wordsOf_blank a hb]
    · rw [if_pos (by simp [hb])]
      simp only [List.join] at ih
      simp only [List.map_cons, List.join, List.flatten_cons]
      rw [ih]

/-! ### C7, stage D: `htmlToPlainText` on paragraph-wrapped HTML -/

/-- `"<p>".data` as an explicit list. -/
theorem pOpenData : "<p>".data = ['<', 'p', '>'] := rfl

/-- `"</p>".data` as an explicit list. -/
theorem pCloseData : "</p>".data = ['<', '/', 'p', '>'] := rfl

/-- The scanner on the empty string. -/
theorem applyRep_nil (m : List Char → Option (List Char × List Char)) :
    applyRep m [] = [] := rfl

/-- The br matcher fails off a tag opener. -/
theorem mBr_ne (c : Char) (t : List Char) (hc : c ≠ '<') : mBr (c :: t) = none := by
  rw [mBr.eq_def]
  split
  · rename_i r heq
    injection heq with h1 h2
    exact absurd h1 hc
  · rfl

/-- The br matcher fails on a paragraph opener. -/
theorem mBr_p (u : List Char) : mBr ('<' :: 'p' :: u) = none := rfl

/-- The br matcher fails on a closing tag. -/
theorem mBr_slash (u : List Char) : mBr ('<' :: '/' :: u) = none := rfl

/-- The closing-tag matcher fails off a tag opener. -/
theorem mCloseTag_ne (c : Char) (t : List Char) (hc : c ≠ '<') :
    mCloseTag (c :: t) = none := by
  rw [mCloseTag.eq_def]
  split
  · rename_i r heq
    injection heq with h1 h2
    exact absurd h1 hc
  · rfl

/-- The closing-tag matcher fails on a paragraph opener. -/
theorem mCloseTag_open (u : List Char) : mCloseTag ('<' :: 'p' :: u) = none := rfl

/-- The closing-tag matcher consumes `</p>`. -/
theorem mCloseTag_hit (v : List Char) :
    mCloseTag ('<' :: '/' :: 'p' :: '>' :: v) = some ("\n".data, v) := rfl

/-- The opening-tag matcher fails off a tag opener. -/
theorem mOpenTag_ne (c : Char) (t : List Char) (hc : c ≠ '<') :
    mOpenTag (c :: t) = none := by
  rw [mOpenTag.eq_def]
  split
  · rename_i r heq
    injection heq with h1 h2
    exact absurd h1 hc
  · rfl

/-- The opening-tag matcher consumes `<p>`. -/
theorem mOpenTag_hit (v : List Char) :
    mOpenTag ('<' :: 'p' :: '>' :: v) = some ("\n".data, v) := rfl

/-- The strip matcher fails off a tag opener. -/
theorem mStrip_ne (c : Char) (t : List Char) (hc : c ≠ '<') : mStrip (c :: t) = none := by
  rw [mStrip.eq_def]
  split
  · rename_i r heq
    injection heq with h1 h2
    exact absurd h1 hc
  · rfl

/-- The entity matcher fails off the pattern head. -/
theorem mLit_ne (pat rep : List Char) (c0 c : Char) (t : List Char)
    (hpat : pat.head? = some c0) (hc : c ≠ c0) : mLit pat rep (c :: t) = none := by
  unfold mLit
  rw [if_neg]
  rintro ⟨hpre, -⟩
  cases pat with
  | nil => simp at hpat
  | cons p ps =>
    simp only [List.head?_cons, Option.some.injEq] at hpat
    have hp : p :: ps <+: c :: t := List.isPrefixOf_iff_prefix.mp hpre
    obtain ⟨w, hw⟩ := hp
    simp only [List.cons_append] at hw
    have hpc : p = c := ((List.cons.injEq _ _ _ _).mp hw).1
    exact hc (hpc ▸ hpat)

/-- The newline-collapse matcher fails off a newline. -/
theorem mCollapse_ne (c : Char) (t : List Char) (hc : c ≠ '\n') :
    mCollapse (c :: t) = none := by
  rw [mCollapse.eq_def]
  split
  · rename_i r heq
    injection heq with h1 h2
    exact absurd h1 hc
  · rfl

/-- The newline-collapse matcher fails on a lone newline before a word. -/
theorem mCollapse_two (c : Char) (t : List Char) (hc : c ≠ '\n') :
    mCollapse ('\n' :: c :: t) = none := by
  rw [mCollapse.eq_def]
  split
  · rename_i r heq
    injection heq with h1 h2
    injection h2 with h3 h4
    exact absurd h3 hc
  · rfl

/-- The newline-collapse matcher fails on a final newline. -/
theorem mCollapse_one : mCollapse ['\n'] = none := rfl

/-- The newline-collapse matcher consumes a triple newline and the rest of the
run. -/
theorem mCollapse_hit (v : List Char) :
    mCollapse ('\n' :: '\n' :: '\n' :: v) =
      some ("\n\n".data, v.dropWhile (fun c => c = '\n')) := rfl

/-- Case-insensitive prefix stripping yields a suffix. -/
theorem dropPrefCI_suffix : ∀ (p s r : List Char), dropPrefCI p s = some r → r <:+ s := by
  intro p
  induction p with
  | nil =>
    intro s r h
    simp [dropPrefCI] at h
    subst h
    exact List.suffix_refl s
  | cons p0 ps ih =>
    intro s r h
    cases s with
    | nil => simp [dropPrefCI] at h
    | cons c cs =>
      have he : dropPrefCI (p0 :: ps) (c :: cs) =
          if c.toLower = p0 then dropPrefCI ps cs else none := rfl
      rw [he] at h
      by_cases hck : c.toLower = p0
      · rw [if_pos hck] at h
        exact (ih cs r h).trans (List.suffix_cons c cs)
      · rw [if_neg hck] at h
        simp at h

/-- The closing-tag tail parser yields a suffix. -/
theorem closeTagTail_suffix (s t : List Char) (h : closeTagTail s = some t) : t <:+ s := by
  unfold closeTagTail at h
  split at h
  · rename_i t2 heq
    injection h with h2
    subst h2
    have hds : s.dropWhile jsWs <:+ s := List.dropWhile_suffix jsWs
    rw [heq] at hds
    exact (List.suffix_cons '>' t2).trans hds
  · simp at h

/-- The opening-tag tail parser yields a suffix. -/
theorem openTagTail_suffix (s t : List Char) (h : openTagTail s = some t) : t <:+ s := by
  unfold openTagTail at h
  split at h
  · rename_i t2 heq
    injection h with h2
    subst h2
    have hds : s.dropWhile (fun c => c ≠ '>') <:+ s :=
      List.dropWhile_suffix (fun c => c ≠ '>')
    rw [heq] at hds
    exact (List.suffix_cons '>' t2).trans hds
  · simp at h

/-- The closing-tag alternation yields a suffix. -/
theorem tryCloseNames_suffix : ∀ (ns : List (List Char)) (s t : List Char),
    tryCloseNames ns s = some t → t <:+ s := by
  intro ns
  induction ns with
  | nil =>
    intro s t h
    simp [tryCloseNames] at h
  | cons n ns2 ih =>
    intro s t h
    have he : tryCloseNames (n :: ns2) s =
        match dropPrefCI n s with
        | some r =>
          match closeTagTail r with
          | some t2 => some t2
          | none => tryCloseNames ns2 s
        | none => tryCloseNames ns2 s := rfl
    rw [he] at h
    split at h
    · rename_i r heq
      split at h
      · rename_i t2 heq2
        injection h with h2
        subst h2
        exact (closeTagTail_suffix r t2 heq2).trans (dropPrefCI_suffix n s r heq)
      · exact ih s t h
    · exact ih s t h

/-- The opening-tag alternation yields a suffix. -/
theorem tryOpenNames_suffix : ∀ (ns : List (List Char)) (s t : List Char),
    tryOpenNames ns s = some t → t <:+ s := by
  intro ns
  induction ns with
  | nil =>
    intro s t h
    simp [tryOpenNames] at h
  | cons n ns2 ih =>
    intro s t h
    have he : tryOpenNames (n :: ns2) s =
        match dropPrefCI n s with
        | some r =>
          match openTagTail r with
          | some t2 => some t2
          | none => tryOpenNames ns2 s
        | none => tryOpenNames ns2 s := rfl
    rw [he] at h
    split at h
    · rename_i r heq
      split at h
      · rename_i t2 heq2
        injection h with h2
        subst h2
        exact (openTagTail_suffix r t2 heq2).trans (dropPrefCI_suffix n s r heq)
      · exact ih s t h
    · exact ih s t h

/-- The closing-tag matcher always consumes forward. -/
theorem mCloseTag_prog : MProg mCloseTag := by
  intro s rep rem h
  rw [mCloseTag.eq_def] at h
  split at h
  · rename_i r
    split at h
    · rename_i r2 heq2
      split at h
      · rename_i t heq3
        injection h with h2
        injection h2 with h3 h4
        subst h4
        have hc1 : t <:+ r2.dropWhile jsWs := tryCloseNames_suffix tagNames _ t heq3
        have hc2 : r2.dropWhile jsWs <:+ r2 := List.dropWhile_suffix jsWs
        have hc3 : r.dropWhile jsWs <:+ r := List.dropWhile_suffix jsWs
        rw [heq2] at hc3
        have hc4 : t <:+ r := ((hc1.trans hc2).trans (List.suffix_cons '/' r2)).trans hc3
        have := hc4.length_le
        simp only [List.length_cons]
        omega
      · simp at h
    · simp at h
  · simp at h

/-- The opening-tag matcher always consumes forward. -/
theorem mOpenTag_prog : MProg mOpenTag := by
  intro s rep rem h
  rw [mOpenTag.eq_def] at h
  split at h
  · rename_i r
    split at h
    · rename_i t heq2
      injection h with h2
      injection h2 with h3 h4
      subst h4
      have hc1 : t <:+ r.dropWhile jsWs := tryOpenNames_suffix tagNames _ t heq2
      have hc2 : r.dropWhile jsWs <:+ r := List.dropWhile_suffix jsWs
      have := (hc1.trans hc2).length_le
      simp only [List.length_cons]
      omega
    · simp at h
  · simp at h

/-- The newline-collapse matcher always consumes forward. -/
theorem mCollapse_prog : MProg mCollapse := by
  intro s rep rem h
  rw [mCollapse.eq_def] at h
  split at h
  · rename_i r
    injection h with h2
    injection h2 with h3 h4
    subst h4
    have hds : r.dropWhile (fun c => c = '\n') <:+ r := List.dropWhile_suffix _
    have := hds.length_le
    simp only [List.length_cons]
    omega
  · simp at h

/-- Join pieces with single newlines (the `join('\n')` of `toRichHtml`). -/
def joinNl (ps : List (List Char)) : List Char := List.intercalate "\n".data ps

/-- A paragraph after the closing tags were replaced. -/
def wrapHalf (l : List Char) : List Char := "<p>".data ++ l ++ "\n".data

/-- A paragraph after both tags were replaced. -/
def wrapNl (l : List Char) : List Char := "\n".data ++ l ++ "\n".data

/-- `joinNl` on the empty list. -/
theorem joinNl_nil : joinNl [] = [] := by
  unfold joinNl
  exact intercalate_nil2 _

/-- `joinNl` on a singleton. -/
theorem joinNl_one (a : List Char) : joinNl [a] = a := by
  unfold joinNl
  exact intercalate_one _ a

/-- `joinNl` step. -/
theorem joinNl_cons2 (a b : List Char) (ls : List (List Char)) :
    joinNl (a :: b :: ls) = a ++ '\n' :: joinNl (b :: ls) := by
  unfold joinNl
  rw [intercalate_cons2, nlData, List.append_assoc]
  rfl

/-- Suffixes of the opening paragraph tag. -/
theorem suffix_of_wrapOpen {t0 : List Char} (h : t0 <:+ "<p>".data) :
    t0 = [] ∨ t0 = ['>'] ∨ t0 = ['p', '>'] ∨ t0 = ['<', 'p', '>'] := by
  rw [pOpenData] at h
  rcases List.suffix_cons_iff.mp h with h1 | h1
  · right; right; right; exact h1
  rcases List.suffix_cons_iff.mp h1 with h2 | h2
  · right; right; left; exact h2
  rcases List.suffix_cons_iff.mp h2 with h3 | h3
  · right; left; exact h3
  · left; exact List.suffix_nil.mp h3

/-- Suffixes of the closing paragraph tag. -/
theorem suffix_of_wrapClose {t0 : List Char} (h : t0 <:+ "</p>".data) :
    t0 = [] ∨ t0 = ['>'] ∨ t0 = ['p', '>'] ∨ t0 = ['/', 'p', '>'] ∨
      t0 = ['<', '/', 'p', '>'] := by
  rw [pCloseData] at h
  rcases List.suffix_cons_iff.mp h with h1 | h1
  · right; right; right; right; exact h1
  rcases List.suffix_cons_iff.mp h1 with h2 | h2
  · right; right; right; left; exact h2
  rcases List.suffix_cons_iff.mp h2 with h3 | h3
  · right; right; left; exact h3
  rcases List.suffix_cons_iff.mp h3 with h4 | h4
  · right; left; exact h4
  · left; exact List.suffix_nil.mp h4

/-- No closing-tag match can start inside `<p>` followed by a tag-free line. -/
theorem closePre (l : List Char) (hl : ∀ c ∈ l, c ≠ '<') (B : List Char) :
    ∀ t, t ≠ [] → t <:+ ("<p>".data ++ l) → mCloseTag (t ++ B) = none := by
  intro t ht hsuf
  rcases suffix_append_cases hsuf with hB | ⟨t0, ht0, hsuf0, heq⟩
  · cases t with
    | nil => exact absurd rfl ht
    | cons c t2 =>
      rw [List.cons_append]
      exact mCloseTag_ne c (t2 ++ B) (hl c (hB.subset (List.mem_cons_self c t2)))
  · rcases suffix_of_wrapOpen hsuf0 with h0 | h0 | h0 | h0
    · exact absurd h0 ht0
    · subst h0
      subst heq
      simp only [List.cons_append, List.nil_append]
      exact mCloseTag_ne '>' (l ++ B) (by decide)
    · subst h0
      subst heq
      simp only [List.cons_append, List.nil_append]
      exact mCloseTag_ne 'p' ('>' :: (l ++ B)) (by decide)
    · subst h0
      subst heq
      simp only [List.cons_append, List.nil_append]
      exact mCloseTag_open ('>' :: (l ++ B))

/-- No br match ever starts inside the paragraph HTML of tag-free lines. -/
theorem wrapP_br_none (ls : List (List Char)) (h : ∀ l ∈ ls, ∀ c ∈ l, c ≠ '<') :
    ∀ t, t ≠ [] → t <:+ joinNl (ls.map wrapP) → mBr t = none := by
  induction ls with
  | nil =>
    rw [List.map_nil, joinNl_nil]
    intro t ht hsuf
    exact absurd (List.suffix_nil.mp hsuf) ht
  | cons l rest ih =>
    have hl : ∀ c ∈ l, c ≠ '<' := h l (List.mem_cons_self l rest)
    have ihr := ih (fun l2 hl2 => h l2 (List.mem_cons_of_mem l hl2))
    have hblock : ∀ (tail : List Char),
        (∀ t, t ≠ [] → t <:+ tail → mBr t = none) →
        ∀ t, t ≠ [] → t <:+ wrapP l ++ tail → mBr t = none := by
      intro tail htail t ht hsuf
      have hre : wrapP l ++ tail = ("<p>".data ++ l) ++ ("</p>".data ++ tail) := by
        unfold wrapP
        simp [List.append_assoc]
      rw [hre] at hsuf
      rcases suffix_append_cases hsuf with h1 | ⟨t0, ht0, hs0, heq0⟩
      · rcases suffix_append_cases h1 with h2 | ⟨t1, ht1, hs1, heq1⟩
        · exact htail t ht h2
        · rcases suffix_of_wrapClose hs1 with h3 | h3 | h3 | h3 | h3
          · exact absurd h3 ht1
          · subst h3; subst heq1
            simp only [List.cons_append, List.nil_append]
            exact mBr_ne '>' tail (by decide)
          · subst h3; subst heq1
            simp only [List.cons_append, List.nil_append]
            exact mBr_ne 'p' ('>' :: tail) (by decide)
          · subst h3; subst heq1
            simp only [List.cons_append, List.nil_append]
            exact mBr_ne '/' ('p' :: '>' :: tail) (by decide)
          · subst h3; subst heq1
            simp only [List.cons_append, List.nil_append]
            exact mBr_slash ('p' :: '>' :: tail)
      · rcases suffix_append_cases hs0 with h2 | ⟨t1, ht1, hs1, heq1⟩
        · subst heq0
          cases t0 with
          | nil => exact absurd rfl ht0
          | cons c t2 =>
            rw [List.cons_append]
            exact mBr_ne c _ (hl c (h2.subset (List.mem_cons_self c t2)))
        · rcases suffix_of_wrapOpen hs1 with h3 | h3 | h3 | h3
          · exact absurd h3 ht1
          · subst h3; subst heq1; subst heq0
            simp only [List.cons_append, List.nil_append]
            exact mBr_ne '>' _ (by decide)
          · subst h3; subst heq1; subst heq0
            simp only [List.cons_append, List.nil_append]
            exact mBr_ne 'p' _ (by decide)
          · subst h3; subst heq1; subst heq0
            simp only [List.cons_append, List.nil_append]
            exact mBr_p _
    cases rest with
    | nil =>
      rw [List.map_cons, List.map_nil, joinNl_one]
      intro t ht hsuf
      refine hblock [] ?_ t ht ?_
      · intro t2 ht2 hs2
        exact absurd (List.suffix_nil.mp hs2) ht2
      · rw [List.append_nil]
        exact hsuf
    | cons r rest2 =>
      rw [List.map_cons, List.map_cons, joinNl_cons2]
      intro t ht hsuf
      refine hblock ('\n' :: joinNl (wrapP r :: List.map wrapP rest2)) ?_ t ht hsuf
      intro t2 ht2 hs2
      rcases List.suffix_cons_iff.mp hs2 with h1 | h1
      · subst h1
        exact mBr_ne '\n' _ (by decide)
      · refine ihr t2 ht2 ?_
        rw [List.map_cons]
        exact h1

/-- The br pass is the identity on the paragraph HTML. -/
theorem br_stage (ls : List (List Char)) (h : ∀ l ∈ ls, ∀ c ∈ l, c ≠ '<') :
    applyRep mBr (joinNl (ls.map wrapP)) = joinNl (ls.map wrapP) :=
  applyRep_no_match mBr _ (wrapP_br_none ls h)

/-- The closing-tag pass rewrites every `</p>` to a newline. -/
theorem close_stage (ls : List (List Char)) (h : ∀ l ∈ ls, ∀ c ∈ l, c ≠ '<') :
    applyRep mCloseTag (joinNl (ls.map wrapP)) = joinNl (ls.map wrapHalf) := by
  induction ls with
  | nil =>
    rw [List.map_nil, List.map_nil, joinNl_nil, applyRep_nil]
  | cons l rest ih =>
    have hl : ∀ c ∈ l, c ≠ '<' := h l (List.mem_cons_self l rest)
    have ihr := ih (fun l2 hl2 => h l2 (List.mem_cons_of_mem l hl2))
    cases rest with
    | nil =>
      rw [List.map_cons, List.map_nil, joinNl_one, List.map_cons, List.map_nil, joinNl_one]
      have hW : wrapP l = ("<p>".data ++ l) ++ "</p>".data := by
        unfold wrapP
        rw [List.append_assoc]
      rw [hW, applyRep_append_pre mCloseTag ("<p>".data ++ l) "</p>".data (closePre l hl _)]
      rw [show applyRep mCloseTag "</p>".data = "\n".data from by
        rw [show ("</p>".data : List Char) = '<' :: '/' :: 'p' :: '>' :: [] from rfl]
        rw [applyRep_match mCloseTag mCloseTag_prog _ _ _ (mCloseTag_hit [])]
        rw [applyRep_nil, List.append_nil]]
      unfold wrapHalf
      rw [List.append_assoc]
    | cons r rest2 =>
      rw [List.map_cons, List.map_cons, joinNl_cons2]
      have hW : wrapP l ++ '\n' :: joinNl (wrapP r :: List.map wrapP rest2)
          = ("<p>".data ++ l) ++
            ('<' :: '/' :: 'p' :: '>' :: ('\n' :: joinNl (wrapP r :: List.map wrapP rest2))) := by
        unfold wrapP
        rw [pCloseData]
        simp [List.append_assoc]
      rw [hW]
      rw [applyRep_append_pre mCloseTag _ _ (closePre l hl _)]
      rw [applyRep_match mCloseTag mCloseTag_prog _ _ _
        (mCloseTag_hit ('\n' :: joinNl (wrapP r :: List.map wrapP rest2)))]
      rw [applyRep_cons_none mCloseTag '\n' _ (mCloseTag_ne '\n' _ (by decide))]
      rw [show joinNl (wrapP r :: List.map wrapP rest2) = joinNl ((r :: rest2).map wrapP) from by
        rw [List.map_cons]]
      rw [ihr]
      simp [joinNl_cons2, wrapHalf, nlData, List.append_assoc]

/-- The opening-tag pass rewrites every `<p>` to a newline. -/
theorem open_stage (ls : List (List Char)) (h : ∀ l ∈ ls, ∀ c ∈ l, c ≠ '<') :
    applyRep mOpenTag (joinNl (ls.map wrapHalf)) = joinNl (ls.map wrapNl) := by
  induction ls with
  | nil =>
    rw [List.map_nil, List.map_nil, joinNl_nil, applyRep_nil]
  | cons l rest ih =>
    have hl : ∀ c ∈ l, c ≠ '<' := h l (List.mem_cons_self l rest)
    have ihr := ih (fun l2 hl2 => h l2 (List.mem_cons_of_mem l hl2))
    have hpre : ∀ (B : List Char), ∀ t, t ≠ [] → t <:+ l → mOpenTag (t ++ B) = none := by
      intro B t ht hsuf
      cases t with
      | nil => exact absurd rfl ht
      | cons c t2 =>
        rw [List.cons_append]
        exact mOpenTag_ne c _ (hl c (hsuf.subset (List.mem_cons_self c t2)))
    cases rest with
    | nil =>
      rw [List.map_cons, List.map_nil, joinNl_one, List.map_cons, List.map_nil, joinNl_one]
      rw [show wrapHalf l = '<' :: 'p' :: '>' :: (l ++ "\n".data) from by
        unfold wrapHalf
        rw [pOpenData, nlData]
        simp]
      rw [applyRep_match mOpenTag mOpenTag_prog _ _ _ (mOpenTag_hit (l ++ "\n".data))]
      rw [applyRep_append_pre mOpenTag l "\n".data (hpre _)]
      rw [show applyRep mOpenTag "\n".data = "\n".data from by
        rw [nlData, applyRep_cons_none mOpenTag '\n' [] (mOpenTag_ne '\n' [] (by decide)),
          applyRep_nil]]
      unfold wrapNl
      rw [List.append_assoc]
    | cons r rest2 =>
      rw [List.map_cons, List.map_cons, joinNl_cons2]
      rw [show wrapHalf l ++ '\n' :: joinNl (wrapHalf r :: List.map wrapHalf rest2)
            = '<' :: 'p' :: '>' ::
              (l ++ ('\n' :: '\n' :: joinNl (wrapHalf r :: List.map wrapHalf rest2))) from by
        unfold wrapHalf
        rw [pOpenData, nlData]
        simp]
      rw [applyRep_match mOpenTag mOpenTag_prog _ _ _ (mOpenTag_hit _)]
      rw [applyRep_append_pre mOpenTag l _ (hpre _)]
      rw [applyRep_cons_none mOpenTag '\n' _ (mOpenTag_ne '\n' _ (by decide))]
      rw [applyRep_cons_none mOpenTag '\n' _ (mOpenTag_ne '\n' _ (by decide))]
      rw [show joinNl (wrapHalf r :: List.map wrapHalf rest2) = joinNl ((r :: rest2).map wrapHalf) from by
        rw [List.map_cons]]
      rw [ihr]
      simp [joinNl_cons2, wrapNl, wrapHalf, nlData, List.append_assoc]

/-- Characters of a newline join come from the separator or a piece. -/
theorem mem_joinNl (ps : List (List Char)) (c : Char) (hc : c ∈ joinNl ps) :
    c = '\n' ∨ ∃ p ∈ ps, c ∈ p := by
  induction ps with
  | nil =>
    rw [joinNl_nil] at hc
    simp at hc
  | cons a ps2 ih =>
    cases ps2 with
    | nil =>
      rw [joinNl_one] at hc
      right
      exact ⟨a, List.mem_cons_self a [], hc⟩
    | cons b ps3 =>
      rw [joinNl_cons2] at hc
      rcases List.mem_append.mp hc with h1 | h1
      · right
        exact ⟨a, List.mem_cons_self a _, h1⟩
      · rcases List.mem_cons.mp h1 with h2 | h2
        · left
          exact h2
        · rcases ih h2 with h3 | ⟨p, hp, hcp⟩
          · left
            exact h3
          · right
            exact ⟨p, List.mem_cons_of_mem a hp, hcp⟩

/-- The strip pass is the identity on tag-free text. -/
theorem strip_stage (s : List Char) (h : ∀ c ∈ s, c ≠ '<') : applyRep mStrip s = s :=
  applyRep_no_match mStrip s (fun t ht hsuf => by
    cases t with
    | nil => exact absurd rfl ht
    | cons c t2 => exact mStrip_ne c t2 (h c (hsuf.subset (List.mem_cons_self c t2))))

/-- Each entity pass is the identity on ampersand-free text. -/
theorem lit_stage (pat rep : List Char) (hpat : pat.head? = some '&') (s : List Char)
    (h : ∀ c ∈ s, c ≠ '&') : applyRep (mLit pat rep) s = s :=
  applyRep_no_match _ s (fun t ht hsuf => by
    cases t with
    | nil => exact absurd rfl ht
    | cons c t2 =>
      exact mLit_ne pat rep '&' c t2 hpat (h c (hsuf.subset (List.mem_cons_self c t2))))

/-- `splitNl` walks over a newline-free prefix. -/
theorem splitNl_append_nonl (a : List Char) (ha : ∀ c ∈ a, c ≠ '\n') (b : List Char) :
    splitNl (a ++ b) = (a ++ (splitNl b).headI) :: (splitNl b).tail := by
  induction a with
  | nil =>
    rw [List.nil_append, List.nil_append]
    cases hsb : splitNl b with
    | nil => exact absurd hsb (splitNl_ne_nil b)
    | cons p ps => simp
  | cons c a2 ih =>
    rw [List.cons_append, splitNl_cons_ne c (a2 ++ b) (ha c (List.mem_cons_self c a2))]
    rw [ih (fun d hd => ha d (List.mem_cons_of_mem c hd))]
    simp

/-- `splitNl` of a lone newline. -/
theorem splitNl_onenl : splitNl (['\n'] : List Char) = [[], []] := rfl

/-- Pieces of the split of the staged text are blanks or original lines. -/
theorem splitNl_wrapNl_mem (ls : List (List Char)) (hnl : ∀ l ∈ ls, ∀ c ∈ l, c ≠ '\n') :
    ∀ p ∈ splitNl (joinNl (ls.map wrapNl)), p = [] ∨ p ∈ ls := by
  induction ls with
  | nil =>
    rw [List.map_nil, joinNl_nil]
    intro p hp
    left
    simp [splitNl] at hp
    exact hp
  | cons l rest ih =>
    have hl := hnl l (List.mem_cons_self l rest)
    have ihr := ih (fun l2 h2 => hnl l2 (List.mem_cons_of_mem l h2))
    cases rest with
    | nil =>
      rw [List.map_cons, List.map_nil, joinNl_one]
      rw [show wrapNl l = '\n' :: (l ++ ['\n']) from by
        unfold wrapNl
        rw [nlData]
        simp]
      rw [splitNl_nl, splitNl_append_nonl l hl ['\n'], splitNl_onenl]
      intro p hp
      simp only [List.headI, List.tail_cons, List.append_nil] at hp
      rcases List.mem_cons.mp hp with h1 | h1
      · left
        exact h1
      rcases List.mem_cons.mp h1 with h2 | h2
      · right
        rw [h2]
        exact List.mem_cons_self l []
      · left
        simp at h2
        exact h2
    | cons r rest2 =>
      rw [List.map_cons, List.map_cons, joinNl_cons2]
      rw [show wrapNl l ++ '\n' :: joinNl (wrapNl r :: List.map wrapNl rest2)
            = '\n' :: (l ++ ('\n' :: '\n' :: joinNl (wrapNl r :: List.map wrapNl rest2))) from by
        unfold wrapNl
        rw [nlData]
        simp]
      rw [splitNl_nl, splitNl_append_nonl l hl _, splitNl_nl, splitNl_nl]
      intro p hp
      simp only [List.headI, List.tail_cons] at hp
      rcases List.mem_cons.mp hp with h1 | h1
      · left
        exact h1
      rcases List.mem_cons.mp h1 with h2 | h2
      · right
        rw [h2, List.append_nil]
        exact List.mem_cons_self l _
      rcases List.mem_cons.mp h2 with h3 | h3
      · left
        exact h3
      · rcases ihr p (by rw [List.map_cons]; exact h3) with h4 | h4
        · left
          exact h4
        · right
          exact List.mem_cons_of_mem l h4

/-- `lineTrimEnds` is the identity when every line is already trimmed. -/
theorem lineTrimEnds_id (s : List Char) (h : ∀ p ∈ splitNl s, trimEndL p = p) :
    lineTrimEnds s = s := by
  unfold lineTrimEnds
  rw [List.map_congr_left h, List.map_id', nlData, splitNl_join]

/-- The per-line trim pass is the identity on the staged text. -/
theorem trimEnds_stage (ls : List (List Char)) (hnl : ∀ l ∈ ls, ∀ c ∈ l, c ≠ '\n')
    (hfix : ∀ l ∈ ls, trimEndL l = l) :
    lineTrimEnds (joinNl (ls.map wrapNl)) = joinNl (ls.map wrapNl) := by
  refine lineTrimEnds_id _ ?_
  intro p hp
  rcases splitNl_wrapNl_mem ls hnl p hp with h1 | h1
  · rw [h1]
    rfl
  · exact hfix p h1

/-- The staged text as one newline-framed block. -/
theorem pLines_eq (ls : List (List Char)) (hne : ls ≠ []) :
    joinNl (ls.map wrapNl) = '\n' :: (List.intercalate "\n\n\n".data ls ++ ['\n']) := by
  induction ls with
  | nil => exact absurd rfl hne
  | cons l rest ih =>
    cases rest with
    | nil =>
      rw [List.map_cons, List.map_nil, joinNl_one, intercalate_one]
      unfold wrapNl
      rw [nlData]
      simp
    | cons r rest2 =>
      rw [List.map_cons, List.map_cons, joinNl_cons2, ← List.map_cons, ih (by simp),
        intercalate_cons2]
      unfold wrapNl
      rw [nlData, show ("\n\n\n".data : List Char) = ['\n', '\n', '\n'] from rfl]
      simp

/-- The head of a joined nonempty first piece. -/
theorem inter_head_cons (sep : List Char) (r0 : List Char) (rest : List (List Char))
    (c0 : Char) (t0 : List Char) (h : r0 = c0 :: t0) :
    ∃ u, List.intercalate sep (r0 :: rest) ++ ['\n'] = c0 :: u := by
  cases rest with
  | nil =>
    rw [intercalate_one, h]
    exact ⟨t0 ++ ['\n'], by simp⟩
  | cons r1 rest2 =>
    rw [intercalate_cons2, h]
    exact ⟨t0 ++ sep ++ List.intercalate sep (r1 :: rest2) ++ ['\n'], by simp⟩

/-- `dropWhile` of newlines stops at a non-newline head. -/
theorem dropWhile_nl_cons (c0 : Char) (u : List Char) (hc : c0 ≠ '\n') :
    (c0 :: u).dropWhile (fun c => c = '\n') = c0 :: u := by
  rw [List.dropWhile_cons, if_neg (by simp [hc])]

/-- The collapse pass rewrites every inner triple newline to a double one. -/
theorem collapse_aux (ls : List (List Char)) (h0 : ∀ l ∈ ls, l ≠ [])
    (hnl : ∀ l ∈ ls, ∀ c ∈ l, c ≠ '\n') (hne : ls ≠ []) :
    applyRep mCollapse (List.intercalate "\n\n\n".data ls ++ ['\n']) =
      List.intercalate "\n\n".data ls ++ ['\n'] := by
  induction ls with
  | nil => exact absurd rfl hne
  | cons l rest ih =>
    have hlnl := hnl l (List.mem_cons_self l rest)
    have hpre : ∀ (B : List Char), ∀ t, t ≠ [] → t <:+ l → mCollapse (t ++ B) = none := by
      intro B t ht hsuf
      cases t with
      | nil => exact absurd rfl ht
      | cons c t2 =>
        rw [List.cons_append]
        exact mCollapse_ne c _ (hlnl c (hsuf.subset (List.mem_cons_self c t2)))
    cases rest with
    | nil =>
      rw [intercalate_one, intercalate_one]
      rw [applyRep_append_pre mCollapse l ['\n'] (hpre ['\n'])]
      rw [applyRep_cons_none mCollapse '\n' [] mCollapse_one, applyRep_nil]
    | cons r rest2 =>
      have hr0 := h0 r (List.mem_cons_of_mem l (List.mem_cons_self r rest2))
      obtain ⟨c0, t0, hr⟩ : ∃ c0 t0, r = c0 :: t0 := by
        cases r with
        | nil => exact absurd rfl hr0
        | cons c0 t0 => exact ⟨c0, t0, rfl⟩
      have hc0 : c0 ≠ '\n' := by
        refine hnl r (List.mem_cons_of_mem l (List.mem_cons_self r rest2)) c0 ?_
        rw [hr]
        exact List.mem_cons_self c0 t0
      rw [intercalate_cons2, intercalate_cons2]
      rw [show (l ++ "\n\n\n".data ++ List.intercalate "\n\n\n".data (r :: rest2)) ++ ['\n']
            = l ++ ('\n' :: '\n' :: '\n' ::
                (List.intercalate "\n\n\n".data (r :: rest2) ++ ['\n'])) from by
        rw [show ("\n\n\n".data : List Char) = ['\n', '\n', '\n'] from rfl]
        simp]
      rw [applyRep_append_pre mCollapse l _ (hpre _)]
      rw [applyRep_match mCollapse mCollapse_prog _ _ _
        (mCollapse_hit (List.intercalate "\n\n\n".data (r :: rest2) ++ ['\n']))]
      obtain ⟨u, hu⟩ := inter_head_cons "\n\n\n".data r rest2 c0 t0 hr
      rw [hu, dropWhile_nl_cons c0 u hc0, ← hu]
      rw [ih (fun l2 h2 => h0 l2 (List.mem_cons_of_mem l h2))
        (fun l2 h2 => hnl l2 (List.mem_cons_of_mem l h2)) (by simp)]
      rw [show ("\n\n".data : List Char) = ['\n', '\n'] from rfl]
      simp

/-- The collapse pass on the whole staged text. -/
theorem collapse_stage (ls : List (List Char)) (h0 : ∀ l ∈ ls, l ≠ [])
    (hnl : ∀ l ∈ ls, ∀ c ∈ l, c ≠ '\n') (hne : ls ≠ []) :
    applyRep mCollapse (joinNl (ls.map wrapNl)) =
      '\n' :: (List.intercalate "\n\n".data ls ++ ['\n']) := by
  rw [pLines_eq ls hne]
  obtain ⟨l1, rest, hls⟩ : ∃ l1 rest, ls = l1 :: rest := by
    cases ls with
    | nil => exact absurd rfl hne
    | cons a b => exact ⟨a, b, rfl⟩
  subst hls
  have hl10 := h0 l1 (List.mem_cons_self l1 rest)
  obtain ⟨c0, t0, hl1⟩ : ∃ c0 t0, l1 = c0 :: t0 := by
    cases l1 with
    | nil => exact absurd rfl hl10
    | cons a b => exact ⟨a, b, rfl⟩
  have hc0 : c0 ≠ '\n' := by
    refine hnl l1 (List.mem_cons_self l1 rest) c0 ?_
    rw [hl1]
    exact List.mem_cons_self c0 t0
  obtain ⟨u, hu⟩ := inter_head_cons "\n\n\n".data l1 rest c0 t0 hl1
  rw [hu, applyRep_cons_none mCollapse '\n' (c0 :: u) (mCollapse_two c0 u hc0), ← hu]
  rw [collapse_aux (l1 :: rest) h0 hnl (by simp)]

/-- The paragraph HTML of at least one line is nonempty. -/
theorem joinNl_wrapP_ne_nil (l : List Char) (rest : List (List Char)) :
    joinNl ((l :: rest).map wrapP) ≠ [] := by
  cases rest with
  | nil =>
    rw [List.map_cons, List.map_nil, joinNl_one]
    unfold wrapP
    rw [pOpenData]
    simp
  | cons r rest2 =>
    rw [List.map_cons, List.map_cons, joinNl_cons2]
    unfold wrapP
    rw [pOpenData]
    simp

/-- `htmlToPlainText` as the explicit composition of its passes. -/
theorem htmlToPlainTextL_pipeline (s : List Char) (hs : s ≠ []) :
    htmlToPlainTextL s =
      jsTrimL (applyRep mCollapse (lineTrimEnds
        (applyRep (mLit "&#39;".data [Char.ofNat 39])
          (applyRep (mLit "&quot;".data "\"".data)
            (applyRep (mLit "&gt;".data ">".data)
              (applyRep (mLit "&lt;".data "<".data)
                (applyRep (mLit "&amp;".data "&".data)
                  (applyRep (mLit "&nbsp;".data " ".data)
                    (applyRep mStrip
                      (applyRep mOpenTag
                        (applyRep mCloseTag (applyRep mBr s)))))))))))) := by
  unfold htmlToPlainTextL
  rw [if_neg hs]

/-- `htmlToPlainText` of the paragraph HTML of trimmed, nonempty, tag-free
lines: the double-newline join of the lines, trimmed. -/
theorem htmlToPlainTextL_plain (ls : List (List Char))
    (hlt : ∀ l ∈ ls, ∀ c ∈ l, c ≠ '<' ∧ c ≠ '>' ∧ c ≠ '&' ∧ c ≠ '\n')
    (hfix : ∀ l ∈ ls, trimEndL l = l)
    (h0 : ∀ l ∈ ls, l ≠ [])
    (hne : ls ≠ []) :
    htmlToPlainTextL (joinNl (ls.map wrapP)) =
      jsTrimL ('\n' :: (List.intercalate "\n\n".data ls ++ ['\n'])) := by
  obtain ⟨l1, rest, hls⟩ : ∃ l1 rest, ls = l1 :: rest := by
    cases ls with
    | nil => exact absurd rfl hne
    | cons a b => exact ⟨a, b, rfl⟩
  have h1 : ∀ l ∈ ls, ∀ c ∈ l, c ≠ '<' := fun l hl c hc => (hlt l hl c hc).1
  have hnl : ∀ l ∈ ls, ∀ c ∈ l, c ≠ '\n' := fun l hl c hc => (hlt l hl c hc).2.2.2
  have hTchar : ∀ c ∈ joinNl (ls.map wrapNl), c = '\n' ∨ ∃ l ∈ ls, c ∈ l := by
    intro c hc
    rcases mem_joinNl _ c hc with hh | ⟨p, hp, hcp⟩
    · left
      exact hh
    · obtain ⟨l2, hl2, hpl⟩ := List.mem_map.mp hp
      subst hpl
      unfold wrapNl at hcp
      rw [nlData] at hcp
      rcases List.mem_append.mp hcp with h2 | h2
      · rcases List.mem_append.mp h2 with h3 | h3
        · left
          simpa using h3
        · right
          exact ⟨l2, hl2, h3⟩
      · left
        simpa using h2
  have hTlt : ∀ c ∈ joinNl (ls.map wrapNl), c ≠ '<' := by
    intro c hc
    rcases hTchar c hc with hh | ⟨l2, hl2, hcl⟩
    · rw [hh]
      decide
    · exact (hlt l2 hl2 c hcl).1
  have hTamp : ∀ c ∈ joinNl (ls.map wrapNl), c ≠ '&' := by
    intro c hc
    rcases hTchar c hc with hh | ⟨l2, hl2, hcl⟩
    · rw [hh]
      decide
    · exact (hlt l2 hl2 c hcl).2.2.1
  rw [htmlToPlainTextL_pipeline _ (by rw [hls]; exact joinNl_wrapP_ne_nil l1 rest)]
  rw [br_stage ls h1, close_stage ls h1, open_stage ls h1]
  rw [strip_stage _ hTlt]
  rw [lit_stage "&nbsp;".data " ".data rfl _ hTamp]
  rw [lit_stage "&amp;".data "&".data rfl _ hTamp]
  rw [lit_stage "&lt;".data "<".data rfl _ hTamp]
  rw [lit_stage "&gt;".data ">".data rfl _ hTamp]
  rw [lit_stage "&quot;".data "\"".data rfl _ hTamp]
  rw [lit_stage "&#39;".data [Char.ofNat 39] rfl _ hTamp]
  rw [trimEnds_stage ls hnl hfix]
  rw [collapse_stage ls h0 hnl hne]

/-- C7: for every plain-text input with no markup characters and no auto-link
trigger, `htmlToPlainText (toRichHtml x)` reproduces `x` up to whitespace
normalization: the whitespace-separated words and their order are preserved
exactly. -/
theorem plain_roundtrip_words (x : String) (hx : markupFree x.data = true) :
    wordsOf (htmlToPlainText (toRichHtml x)).data = wordsOf x.data := by
  obtain ⟨hall, hsch⟩ := markupFree_spell x.data hx
  show wordsOf (htmlToPlainTextL (toRichHtmlL x.data)) = wordsOf x.data
  rw [toRichHtmlL_plain x.data hx]
  have hRHS : wordsOf x.data = ((splitNl x.data).map wordsOf).join := by
    conv_lhs => rw [← splitNl_join x.data]
    exact wordsOf_inter_nl (splitNl x.data)
  have hmemL : ∀ l ∈ cleanLines (splitNl x.data),
      (∃ p ∈ splitNl x.data, trimEndL p = l) ∧ jsTrimL l ≠ [] := by
    intro l hl
    unfold cleanLines at hl
    have h2 := List.mem_filter.mp hl
    obtain ⟨p, hp, hpl⟩ := List.mem_map.mp h2.1
    have hbl : jsTrimL l ≠ [] := by simpa using h2.2
    exact ⟨⟨p, hp, hpl⟩, hbl⟩
  have hlt : ∀ l ∈ cleanLines (splitNl x.data), ∀ c ∈ l,
      c ≠ '<' ∧ c ≠ '>' ∧ c ≠ '&' ∧ c ≠ '\n' := by
    intro l hl c hc
    obtain ⟨⟨p, hp, hpl⟩, -⟩ := hmemL l hl
    have hcp : c ∈ p := by
      rw [← hpl] at hc
      exact (trimEnd_front p).subset hc
    have hcx : c ∈ x.data := (splitNl_inside x.data p hp).subset hcp
    have hm := hall c hcx
    refine ⟨?_, ?_, ?_, splitNl_nonl x.data p hp c hcp⟩
    · intro hcon
      subst hcon
      exact absurd hm (by decide)
    · intro hcon
      subst hcon
      exact absurd hm (by decide)
    · intro hcon
      subst hcon
      exact absurd hm (by decide)
  have hfix : ∀ l ∈ cleanLines (splitNl x.data), trimEndL l = l := by
    intro l hl
    obtain ⟨⟨p, hp, hpl⟩, -⟩ := hmemL l hl
    rw [← hpl]
    exact trimEnd_idem p
  have h0 : ∀ l ∈ cleanLines (splitNl x.data), l ≠ [] := by
    intro l hl hcon
    obtain ⟨-, hbl⟩ := hmemL l hl
    rw [hcon] at hbl
    exact hbl rfl
  have hjoin0 : ∀ (qs : List (List Char)), (∀ p ∈ qs, wordsOf p = []) →
      (qs.map wordsOf).join = [] := by
    intro qs hq
    induction qs with
    | nil => rfl
    | cons q qs2 ih =>
      rw [List.map_cons]
      simp only [List.join] at ih ⊢
      rw [List.flatten_cons, hq q (List.mem_cons_self q qs2), List.nil_append]
      exact ih (fun p hp => hq p (List.mem_cons_of_mem q hp))
  by_cases hLnil : cleanLines (splitNl x.data) = []
  · rw [hLnil, List.map_nil, intercalate_nil2]
    rw [show htmlToPlainTextL [] = [] from rfl, wordsOf_nil, hRHS]
    have hall0 : ∀ p ∈ splitNl x.data, wordsOf p = [] := by
      intro p hp
      have hmem : trimEndL p ∈ List.map trimEndL (splitNl x.data) :=
        List.mem_map_of_mem trimEndL hp
      unfold cleanLines at hLnil
      have hfil := List.filter_eq_nil_iff.mp hLnil (trimEndL p) hmem
      have hblank : jsTrimL (trimEndL p) = [] := by simpa using hfil
      have htp : trimEndL p = [] := blank_trimmed p hblank
      rw [← wordsOf_trimEnd p, htp]
      rfl
    exact (hjoin0 (splitNl x.data) hall0).symm
  · rw [show List.intercalate "\n".data ((cleanLines (splitNl x.data)).map wrapP)
        = joinNl ((cleanLines (splitNl x.data)).map wrapP) from rfl]
    rw [htmlToPlainTextL_plain (cleanLines (splitNl x.data)) hlt hfix h0 hLnil]
    rw [wordsOf_jsTrim]
    rw [wordsOf_ws_cons '\n' _ (by decide)]
    rw [wordsOf_append_allws _ ['\n'] (by
      intro c hc
      simp at hc
      subst hc
      decide)]
    rw [wordsOf_inter_nl2]
    rw [hRHS]
    rw [show cleanLines (splitNl x.data)
        = (List.map trimEndL (splitNl x.data)).filter (fun l => decide (jsTrimL l ≠ []))
        from rfl]
    rw [join_filter_blank]
    rw [List.map_map]
    have hmapeq : List.map (wordsOf ∘ trimEndL) (splitNl x.data)
        = List.map wordsOf (splitNl x.data) :=
      List.map_congr_left (fun p hp => wordsOf_trimEnd p)
    rw [hmapeq]

/-- Witness: the round-trip theorem applied to the concrete markup-free input
`"hello world"`. -/
theorem plain_roundtrip_words_witness :
    markupFree "hello world".data = true ∧
      wordsOf (htmlToPlainText (toRichHtml "hello world")).data =
        wordsOf "hello world".data :=
  ⟨by decide, plain_roundtrip_words "hello world" (by decide)⟩

end Chat

